import Mathlib

/-!
# A shallow embedding of the safe-struct binary codec

This file models the `safestruct` package (`core.py`, `descriptors.py`,
`enums.py`, `exceptions.py`): a declarative binary-struct compiler that turns a
record type into a fixed-layout format, validates field values, and converts
records to and from bytes via the platform's standard struct encoding.

Bytes are modelled as `List Nat` (each entry a byte value), Python values as the
inductive `PyValue` (where a Python `bool` is a subtype of `int`, reflected by
`isIntLike` / `intVal`), and the platform `struct` module's explicit-byte-order
encoding (`<`, `>`, `!`: standard sizes, no padding) as `wirePackList` /
`wireUnpackList`.  Text encodings are modelled as an abstract pair of
encode/decode functions, exactly as the source defers to Python's codec
registry; `latin1` is a concrete instance.
-/

namespace SafeStruct

/-- Digit-count worker, structurally recursive on a fuel argument that always
suffices (dividing by ten cannot outlast the number itself). -/
def numDigitsAux : Nat → Nat → Nat
  | 0, _ => 1
  | fuel + 1, n => if n < 10 then 1 else 1 + numDigitsAux fuel (n / 10)

/-- Number of decimal digits of a natural number, as produced by Python's
string interpolation of a length into a format string such as `"4I"` or
`"16s"`. -/
def numDigits (n : Nat) : Nat := numDigitsAux n n

/-- Little-endian byte list of a natural number, with exactly `k` bytes. -/
def natLE : Nat → Nat → List Nat
  | 0, _ => []
  | k + 1, n => n % 256 :: natLE k (n / 256)

/-- Value of a little-endian byte list. -/
def leVal : List Nat → Nat
  | [] => 0
  | b :: bs => b + 256 * leVal bs

@[simp] theorem natLE_length (k n : Nat) : (natLE k n).length = k := by
  induction k generalizing n with
  | zero => rfl
  | succ k ih => simp [natLE, ih]

theorem leVal_natLE (k n : Nat) (h : n < 256 ^ k) : leVal (natLE k n) = n := by
  induction k generalizing n with
  | zero => simp [natLE, leVal]; omega
  | succ k ih =>
      simp only [natLE, leVal]
      rw [ih (n / 256) (by
        have : 256 ^ (k + 1) = 256 ^ k * 256 := by ring
        omega)]
      omega

theorem leVal_lt (bs : List Nat) (h : ∀ b ∈ bs, b < 256) :
    leVal bs < 256 ^ bs.length := by
  induction bs with
  | nil => simp [leVal]
  | cons b bs ih =>
      simp only [leVal, List.length_cons]
      have hb : b < 256 := h b (by simp)
      have ih' := ih (fun x hx => h x (by simp [hx]))
      have : 256 ^ (bs.length + 1) = 256 ^ bs.length * 256 := by ring
      omega

theorem natLE_all_lt (k n : Nat) : ∀ b ∈ natLE k n, b < 256 := by
  induction k generalizing n with
  | zero => simp [natLE]
  | succ k ih =>
      intro b hb
      simp only [natLE, List.mem_cons] at hb
      rcases hb with h | h
      · omega
      · exact ih _ _ h

/-- Index of the first zero byte of a blob, mirroring Python's
`raw_bytes.find(b"\x00")` (which returns `-1`, here `none`, when absent). -/
def firstZeroIdx : List Nat → Option Nat
  | [] => none
  | b :: bs => if b = 0 then some 0 else (firstZeroIdx bs).map (· + 1)

/-- Truncation of a byte blob at its first zero byte, mirroring
`raw_bytes.find(b"\x00")` followed by the slice `raw_bytes[:null_index]` in
`TextField.unpack_value` (the blob is used whole when no zero byte occurs). -/
def truncAtZero (bs : List Nat) : List Nat :=
  match firstZeroIdx bs with
  | some k => bs.take k
  | none => bs

theorem truncAtZero_eq_takeWhile (bs : List Nat) :
    truncAtZero bs = bs.takeWhile (· ≠ 0) := by
  induction bs with
  | nil => rfl
  | cons b bs ih =>
      unfold truncAtZero at ih ⊢
      by_cases hb : b = 0
      · subst hb
        simp [firstZeroIdx]
      · simp only [firstZeroIdx, hb, if_false]
        cases hfind : firstZeroIdx bs with
        | none =>
            rw [hfind] at ih
            simp only [Option.map_none']
            simpa [List.takeWhile_cons, hb, decide_not] using ih
        | some k =>
            rw [hfind] at ih
            simp only [Option.map_some']
            simpa [List.takeWhile_cons, hb, List.take_succ_cons, decide_not] using ih

/-! ## Python values

A Python `bool` is a subtype of `int`: `isinstance(True, int)` holds and
`True == 1`.  `PyValue.float` carries an abstract IEEE bit pattern; floating
point arithmetic itself is not modelled (no claim needs it — `FloatField` is
absent from `src/safestruct/descriptors.py`). -/

inductive PyValue where
  | int (n : Int)
  | bool (b : Bool)
  | float (bits : Nat)
  | bytes (bs : List Nat)
  | str (cs : List Nat)
  | list (vs : List PyValue)
  | record (vs : List PyValue)

/-- `isinstance(value, int)` — true for Python `bool` as well. -/
def PyValue.isIntLike : PyValue → Bool
  | .int _ => true
  | .bool _ => true
  | _ => false

/-- `isinstance(value, bool)`. -/
def PyValue.isBool : PyValue → Bool
  | .bool _ => true
  | _ => false

/-- `isinstance(value, str)`. -/
def PyValue.isStr : PyValue → Bool
  | .str _ => true
  | _ => false

/-- `isinstance(value, (int, float))`: a Python numeric value. -/
def PyValue.isNumeric : PyValue → Bool
  | .int _ => true
  | .bool _ => true
  | .float _ => true
  | _ => false

/-- The integer value of an int-like Python value (`True` is `1`). -/
def PyValue.intVal : PyValue → Int
  | .int n => n
  | .bool b => if b then 1 else 0
  | _ => 0

/-- Python truthiness, as used by the `?` struct code when packing.  (The bit
pattern of a float is nonzero exactly when the float is nonzero, up to the
unreachable negative-zero case; floats never meet a `?` code in this model.) -/
def PyValue.truthy : PyValue → Bool
  | .int n => n ≠ 0
  | .bool b => b
  | .float bits => bits ≠ 0
  | .bytes bs => !bs.isEmpty
  | .str cs => !cs.isEmpty
  | .list vs => !vs.isEmpty
  | .record _ => true

mutual

/-- Python `==` on the values the codec handles: numeric cross-type equality
between `int` and `bool`, structural equality elsewhere.  (Records compare
fieldwise, as a `dataclass` `__eq__` does for two instances of one class;
cross-class comparison does not arise in the claims.) -/
def pyEq : PyValue → PyValue → Bool
  | .int a, .int b => a == b
  | .int a, .bool b => a == (if b then 1 else 0)
  | .bool a, .int b => (if a then (1 : Int) else 0) == b
  | .bool a, .bool b => a == b
  | .float a, .float b => a == b
  | .bytes a, .bytes b => a == b
  | .str a, .str b => a == b
  | .list a, .list b => pyEqList a b
  | .record a, .record b => pyEqList a b
  | _, _ => false

/-- Pointwise Python `==` on sequences. -/
def pyEqList : List PyValue → List PyValue → Bool
  | [], [] => true
  | x :: xs, y :: ys => pyEq x y && pyEqList xs ys
  | _, _ => false

end

/-! ## Text encodings

`TextField` defers to Python's codec registry through `str.encode` /
`bytes.decode`; an encoding is a pair of option-valued functions on codepoint and
byte sequences (`none` models a raised `UnicodeError`). -/

structure PyEncoding where
  encode : List Nat → Option (List Nat)
  decode : List Nat → Option (List Nat)

/-- Python's `latin-1` codec: codepoints below 256 map to the identical bytes;
every byte sequence decodes. -/
def latin1 : PyEncoding where
  encode cs := if cs.all (· < 256) then some cs else none
  decode bs := some bs

/-- An encoding commutes with truncation at the first zero: the property that
makes `TextField`'s pad-then-strip round trip lawful.  `utf-8`, `ascii` and
`latin-1` satisfy it; a multi-byte-unit encoding such as `utf-16` does not. -/
def GoodEncoding (E : PyEncoding) : Prop :=
  ∀ cs bs, E.encode cs = some bs →
    E.decode (bs.takeWhile (· ≠ 0)) = some (cs.takeWhile (· ≠ 0))

theorem goodEncoding_latin1 : GoodEncoding latin1 := by
  intro cs bs h
  simp only [latin1] at h ⊢
  by_cases hall : cs.all (· < 256)
  · simp [hall] at h
    subst h
    rfl
  · simp [hall] at h

/-! ## Byte orders and integer format characters (`enums.py`, `_INTEGER_LIMITS`) -/

/-- The `ByteOrder` enum of `enums.py`. -/
inductive ByteOrder where
  | native
  | standard
  | little
  | big
  | network
  deriving DecidableEq, Repr

/-- The orders the `@struct` decorator accepts (it rejects `NATIVE` and
`STANDARD` with a `FormatError`). -/
def ByteOrder.isExplicit : ByteOrder → Bool
  | .little => true
  | .big => true
  | .network => true
  | _ => false

/-- Direction of the byte layout: `<` is little-endian, `>` and `!` (network)
are big-endian.  (`native`/`standard` are rejected before compilation; the
value chosen for them here is never reached by a compiled schema.) -/
def ByteOrder.isLE : ByteOrder → Bool
  | .little => true
  | _ => false

/-- The ten integer format characters of `_INTEGER_LIMITS`
(`b h i l q` signed, `B H I L Q` unsigned). -/
inductive IntChar where
  | sb | sh | si | sl | sq
  | ub | uh | ui | ul | uq
  deriving DecidableEq, Repr

/-- The declared `(min, max)` table `_INTEGER_LIMITS` of `descriptors.py`,
verbatim — including the 8-byte ranges it assumes for `l` and `L`. -/
def IntChar.limits : IntChar → Int × Int
  | .sb => (-128, 127)
  | .sh => (-32768, 32767)
  | .si => (-2147483648, 2147483647)
  | .sl => (-9223372036854775808, 9223372036854775807)
  | .sq => (-9223372036854775808, 9223372036854775807)
  | .ub => (0, 255)
  | .uh => (0, 65535)
  | .ui => (0, 4294967295)
  | .ul => (0, 18446744073709551615)
  | .uq => (0, 18446744073709551615)

def IntChar.isSigned : IntChar → Bool
  | .sb | .sh | .si | .sl | .sq => true
  | _ => false

/-- The platform struct module's standard size for each integer character
(explicit byte orders always use standard sizes): `b B` 1, `h H` 2, `i I l L`
4, `q Q` 8 bytes. -/
def IntChar.wireSize : IntChar → Nat
  | .sb | .ub => 1
  | .sh | .uh => 2
  | .si | .ui | .sl | .ul => 4
  | .sq | .uq => 8

/-- Smallest value the wire format accepts for a character. -/
def IntChar.wireMin (c : IntChar) : Int :=
  if c.isSigned then -(2 ^ (8 * c.wireSize - 1) : Nat) else 0

/-- Largest value the wire format accepts for a character. -/
def IntChar.wireMax (c : IntChar) : Int :=
  if c.isSigned then (2 ^ (8 * c.wireSize - 1) : Nat) - 1
  else (2 ^ (8 * c.wireSize) : Nat) - 1

/-! ## The wire layer: the platform `struct` module under an explicit order

A format string denotes a sequence of primitive tokens: one integer character,
the boolean character `?`, or a fixed-length blob `Ns`.  Explicit byte orders
use standard sizes and insert no padding. -/

inductive Prim where
  | pInt (c : IntChar)
  | pBool
  | pBytes (n : Nat)
  deriving DecidableEq, Repr

/-- Byte size of one primitive token (`struct.calcsize` contribution). -/
def Prim.size : Prim → Nat
  | .pInt c => c.wireSize
  | .pBool => 1
  | .pBytes n => n

/-- Total byte size of a token sequence: `struct.calcsize` for an
explicit-order format string. -/
def primsSize (ps : List Prim) : Nat := (ps.map Prim.size).sum

/-- Two's-complement byte encoding of an integer already checked to lie in the
wire range, in the requested direction. -/
def intBytes (le : Bool) (size : Nat) (n : Int) : List Nat :=
  let u := (n % ((2 : Int) ^ (8 * size))).toNat
  if le then natLE size u else (natLE size u).reverse

/-- Pad a shorter blob with zero bytes / silently truncate a longer one to the
declared length, as `struct` does for an `Ns` token. -/
def padTrunc (n : Nat) (bs : List Nat) : List Nat :=
  bs.take n ++ List.replicate (n - bs.length) 0

@[simp] theorem padTrunc_length (n : Nat) (bs : List Nat) :
    (padTrunc n bs).length = n := by
  simp [padTrunc]
  omega

theorem padTrunc_of_length_eq (n : Nat) (bs : List Nat) (h : bs.length = n) :
    padTrunc n bs = bs := by
  simp [padTrunc, h, List.take_of_length_le (le_of_eq h)]

/-- Encode one value against one token (`struct.pack`, one argument).  The
error value models a raised `struct.error`: a non-`int` for an integer code, an
out-of-range integer, or a non-bytes object for an `s` code.  The `?` code
accepts any object and packs its truthiness. -/
def packPrim (le : Bool) : Prim → PyValue → Except Unit (List Nat)
  | .pInt c, v =>
      if v.isIntLike then
        if c.wireMin ≤ v.intVal ∧ v.intVal ≤ c.wireMax then
          .ok (intBytes le c.wireSize v.intVal)
        else .error ()
      else .error ()
  | .pBool, v => .ok [if v.truthy then 1 else 0]
  | .pBytes n, v =>
      match v with
      | .bytes bs => .ok (padTrunc n bs)
      | _ => .error ()

/-- Decode one token from exactly `p.size` bytes (`struct.unpack`, one
result). -/
def unpackPrim (le : Bool) : Prim → List Nat → PyValue
  | .pInt c, bs =>
      let u := leVal (if le then bs else bs.reverse)
      .int (if c.isSigned ∧ (2 : Int) ^ (8 * c.wireSize - 1) ≤ (u : Int)
        then (u : Int) - (2 : Int) ^ (8 * c.wireSize)
        else (u : Int))
  | .pBool, bs => .bool (bs.headD 0 != 0)
  | .pBytes _, bs => .bytes bs

/-- `struct.pack` over a whole format: encodes values against tokens
pairwise and concatenates; an argument-count mismatch is a `struct.error`. -/
def wirePackList (le : Bool) : List Prim → List PyValue → Except Unit (List Nat)
  | [], [] => .ok []
  | p :: ps, v :: vs => do
      let b ← packPrim le p v
      let rest ← wirePackList le ps vs
      .ok (b ++ rest)
  | _, _ => .error ()

/-- `struct.unpack` over a whole format: requires the buffer length to be
exactly the format size, consuming `p.size` bytes per token. -/
def wireUnpackList (le : Bool) : List Prim → List Nat → Except Unit (List PyValue)
  | [], [] => .ok []
  | [], _ :: _ => .error ()
  | p :: ps, bs =>
      if p.size ≤ bs.length then do
        let rest ← wireUnpackList le ps (bs.drop p.size)
        .ok (unpackPrim le p (bs.take p.size) :: rest)
      else .error ()

/-- The value a pack/unpack round trip through one token produces: integers
come back as plain `int`s (a packed `True` decodes as `1`), `?` yields the
truthiness, and a blob comes back padded/truncated to the token length. -/
def wireNorm : Prim → PyValue → PyValue
  | .pInt _, v => .int v.intVal
  | .pBool, v => .bool v.truthy
  | .pBytes n, v =>
      match v with
      | .bytes bs => .bytes (padTrunc n bs)
      | _ => v

theorem packPrim_length (le : Bool) (p : Prim) (v : PyValue) (bs : List Nat)
    (h : packPrim le p v = .ok bs) : bs.length = p.size := by
  cases p with
  | pInt c =>
      simp only [packPrim] at h
      by_cases hint : v.isIntLike
      · rw [if_pos hint] at h
        by_cases hrange : c.wireMin ≤ v.intVal ∧ v.intVal ≤ c.wireMax
        · rw [if_pos hrange] at h
          cases h
          cases le <;> simp [intBytes, Prim.size]
        · rw [if_neg hrange] at h; cases h
      · rw [if_neg hint] at h; cases h
  | pBool =>
      simp only [packPrim] at h
      cases h
      simp [Prim.size]
  | pBytes n =>
      simp only [packPrim] at h
      cases v <;> simp at h
      cases h
      simp [Prim.size]

theorem two_pow_eq (s : Nat) : ((2 : Int) ^ (8 * s)) = ((256 ^ s : Nat) : Int) := by
  push_cast
  rw [pow_mul]
  norm_num

theorem unpackPrim_packPrim (le : Bool) (p : Prim) (v : PyValue) (bs : List Nat)
    (h : packPrim le p v = .ok bs) : unpackPrim le p bs = wireNorm p v := by
  cases p with
  | pInt c =>
      simp only [packPrim] at h
      by_cases hint : v.isIntLike
      · rw [if_pos hint] at h
        by_cases hrange : c.wireMin ≤ v.intVal ∧ v.intVal ≤ c.wireMax
        · rw [if_pos hrange] at h
          cases h
          have hMpos : (0 : Int) < (2 : Int) ^ (8 * c.wireSize) := by positivity
          set n := v.intVal with hn
          set M : Int := (2 : Int) ^ (8 * c.wireSize) with hM
          have hmod0 : 0 ≤ n % M := Int.emod_nonneg n (by omega)
          have hmodlt : n % M < M := Int.emod_lt_of_pos n hMpos
          have hval : leVal (if le then intBytes le c.wireSize n
              else (intBytes le c.wireSize n).reverse) = (n % M).toNat := by
            have hlt : (n % M).toNat < 256 ^ c.wireSize := by
              have := two_pow_eq c.wireSize
              omega
            cases le <;>
              simp [intBytes, List.reverse_reverse, leVal_natLE _ _ hlt, hM]
          simp only [unpackPrim, hval, wireNorm]
          congr 1
          have hs1 : 1 ≤ c.wireSize := by cases c <;> simp [IntChar.wireSize]
          have hsplit : M = 2 * 2 ^ (8 * c.wireSize - 1) := by
            rw [hM, ← pow_succ']
            congr 1
            omega
          by_cases hsig : c.isSigned
          · simp only [IntChar.wireMin, IntChar.wireMax, hsig, if_pos] at hrange
            set H : Int := (2 : Int) ^ (8 * c.wireSize - 1) with hH
            have hcast : ((2 ^ (8 * c.wireSize - 1) : Nat) : Int) = H := by
              push_cast [hH]; ring
            rw [hcast] at hrange
            by_cases hpos : 0 ≤ n
            · have hmod : n % M = n := Int.emod_eq_of_lt hpos (by omega)
              rw [Int.toNat_of_nonneg (by omega), hmod]
              rw [if_neg (fun hc => absurd hc.2 (by omega))]
            · have hmod : n % M = n + M := by
                have h1 : (n + M * 1) % M = n % M := Int.add_mul_emod_self_left n M 1
                have h2 : (n + M) % M = n % M := by rw [mul_one] at h1; exact h1
                rw [← h2, Int.emod_eq_of_lt (by omega) (by omega)]
              rw [Int.toNat_of_nonneg (by omega), hmod]
              rw [if_pos ⟨hsig, by omega⟩]
              omega
          · simp only [IntChar.wireMin, IntChar.wireMax, hsig, if_neg, if_false,
              Bool.false_eq_true] at hrange
            have hcast : ((2 ^ (8 * c.wireSize) : Nat) : Int) = M := by
              push_cast [hM]; ring
            rw [hcast] at hrange
            have hmod : n % M = n := Int.emod_eq_of_lt (by omega) (by omega)
            rw [Int.toNat_of_nonneg (by omega), hmod]
            rw [if_neg (by simp [hsig])]
        · rw [if_neg hrange] at h; cases h
      · rw [if_neg hint] at h; cases h
  | pBool =>
      simp only [packPrim] at h
      cases h
      cases hv : v.truthy <;> simp [unpackPrim, wireNorm, hv]
  | pBytes n =>
      simp only [packPrim] at h
      cases v <;> simp at h
      cases h
      simp [unpackPrim, wireNorm]

theorem wirePackList_arity (le : Bool) (ps : List Prim) (vs : List PyValue)
    (bs : List Nat) (h : wirePackList le ps vs = .ok bs) :
    vs.length = ps.length := by
  induction ps generalizing vs bs with
  | nil => cases vs with
      | nil => rfl
      | cons v vs => simp [wirePackList] at h
  | cons p ps ih =>
      cases vs with
      | nil => simp [wirePackList] at h
      | cons v vs =>
          simp only [wirePackList, bind, Except.bind] at h
          cases hp : packPrim le p v with
          | error e => rw [hp] at h; cases h
          | ok b =>
              rw [hp] at h
              cases hrest : wirePackList le ps vs with
              | error e => rw [hrest] at h; cases h
              | ok rest => simp [List.length_cons, ih vs rest hrest]

theorem wirePackList_length (le : Bool) (ps : List Prim) (vs : List PyValue)
    (bs : List Nat) (h : wirePackList le ps vs = .ok bs) :
    bs.length = primsSize ps := by
  induction ps generalizing vs bs with
  | nil => cases vs with
      | nil => cases h; simp [primsSize]
      | cons v vs => simp [wirePackList] at h
  | cons p ps ih =>
      cases vs with
      | nil => simp [wirePackList] at h
      | cons v vs =>
          simp only [wirePackList, bind, Except.bind] at h
          cases hp : packPrim le p v with
          | error e => rw [hp] at h; cases h
          | ok b =>
              rw [hp] at h
              cases hrest : wirePackList le ps vs with
              | error e => rw [hrest] at h; cases h
              | ok rest =>
                  rw [hrest] at h
                  cases h
                  simp [primsSize, List.length_append,
                    packPrim_length le p v b hp, ih vs rest hrest]

/-- Round trip through the wire layer: unpacking what was packed returns the
values normalised token-wise by `wireNorm`. -/
theorem wireUnpack_wirePack (le : Bool) (ps : List Prim) (vs : List PyValue)
    (bs : List Nat) (h : wirePackList le ps vs = .ok bs) :
    wireUnpackList le ps bs = .ok (List.zipWith wireNorm ps vs) := by
  induction ps generalizing vs bs with
  | nil => cases vs with
      | nil => cases h; rfl
      | cons v vs => simp [wirePackList] at h
  | cons p ps ih =>
      cases vs with
      | nil => simp [wirePackList] at h
      | cons v vs =>
          simp only [wirePackList, bind, Except.bind] at h
          cases hp : packPrim le p v with
          | error e => rw [hp] at h; cases h
          | ok b =>
              rw [hp] at h
              cases hrest : wirePackList le ps vs with
              | error e => rw [hrest] at h; cases h
              | ok rest =>
                  rw [hrest] at h
                  cases h
                  have hb : b.length = p.size := packPrim_length le p v b hp
                  simp only [wireUnpackList, List.length_append, hb]
                  rw [if_pos (by omega)]
                  have htake : (b ++ rest).take p.size = b := by
                    rw [← hb, List.take_left]
                  have hdrop : (b ++ rest).drop p.size = rest := by
                    rw [← hb, List.drop_left]
                  rw [htake, hdrop, ih vs rest hrest]
                  simp only [bind, Except.bind]
                  rw [unpackPrim_packPrim le p v b hp]
                  rfl

theorem wireUnpackList_arity (le : Bool) (ps : List Prim) (bs : List Nat)
    (out : List PyValue) (h : wireUnpackList le ps bs = .ok out) :
    out.length = ps.length := by
  induction ps generalizing bs out with
  | nil => cases bs with
      | nil => cases h; rfl
      | cons b bs => simp [wireUnpackList] at h
  | cons p ps ih =>
      simp only [wireUnpackList] at h
      by_cases hsz : p.size ≤ bs.length
      · rw [if_pos hsz] at h
        simp only [bind, Except.bind] at h
        cases hrest : wireUnpackList le ps (bs.drop p.size) with
        | error e => rw [hrest] at h; cases h
        | ok rest =>
            rw [hrest] at h
            cases h
            simp [ih _ rest hrest]
      · rw [if_neg hsz] at h; cases h

/-- Packing splits over concatenation of formats and value lists. -/
theorem wirePackList_append (le : Bool) (ps1 ps2 : List Prim)
    (vs1 vs2 : List PyValue) (b1 b2 : List Nat)
    (h1 : wirePackList le ps1 vs1 = .ok b1)
    (h2 : wirePackList le ps2 vs2 = .ok b2) :
    wirePackList le (ps1 ++ ps2) (vs1 ++ vs2) = .ok (b1 ++ b2) := by
  induction ps1 generalizing vs1 b1 with
  | nil => cases vs1 with
      | nil => cases h1; simpa using h2
      | cons v vs => simp [wirePackList] at h1
  | cons p ps ih =>
      cases vs1 with
      | nil => simp [wirePackList] at h1
      | cons v vs =>
          simp only [wirePackList, bind, Except.bind] at h1 ⊢
          cases hp : packPrim le p v with
          | error e => rw [hp] at h1; cases h1
          | ok b =>
              rw [hp] at h1
              cases hrest : wirePackList le ps vs with
              | error e => rw [hrest] at h1; cases h1
              | ok rest =>
                  rw [hrest] at h1
                  cases h1
                  simp only [List.append_eq]
                  rw [ih vs rest hrest]
                  simp [List.append_assoc]

/-! ## Field descriptors (`descriptors.py`)

The descriptor variants present in `src/safestruct/descriptors.py`: `IntField`,
`BooleanField`, `BytesField`, `TextField`, `ArrayField`, `SubStructField`.
(`FloatField` is imported by `__init__.py` but has no definition under `src/`;
it is modelled separately below from the spec.)  `check` is the caller-supplied
custom predicate; `IntField`, `BooleanField`, `BytesField` and `TextField`
chain it after their built-in checks, `ArrayField` and `SubStructField` ignore
it (`ArrayField.get_validator` never consults the base validator and
`SubStructField` passes no check through). -/

inductive Desc where
  | intF (c : IntChar) (check : PyValue → Bool)
  | boolF (check : PyValue → Bool)
  | bytesF (len : Nat) (check : PyValue → Bool)
  | textF (len : Nat) (enc : PyEncoding) (check : PyValue → Bool)
  | arrayF (item : Desc) (count : Nat)
  | subF (order : ByteOrder) (fields : List (String × Desc))

/-- The always-true default `check` of a descriptor. -/
def noCheck : PyValue → Bool := fun _ => true

/-- The single primitive token of a scalar item descriptor; `ArrayField`'s
constructor restricts items to `IntField` and `BooleanField`, so other
variants never reach this in a compiled schema. -/
def scalarPrim : Desc → Prim
  | .intF c _ => .pInt c
  | _ => .pBool

mutual

/-- The primitive token sequence a descriptor contributes to the compiled
format string: its `struct_char`, token by token. -/
def Desc.prims : Desc → List Prim
  | .intF c _ => [.pInt c]
  | .boolF _ => [.pBool]
  | .bytesF n _ => [.pBytes n]
  | .textF n _ _ => [.pBytes n]
  | .arrayF item k => List.replicate k (scalarPrim item)
  | .subF _ fields => fieldsPrims fields

/-- Concatenated token sequence of an ordered field list. -/
def fieldsPrims : List (String × Desc) → List Prim
  | [] => []
  | (_, d) :: rest => d.prims ++ fieldsPrims rest

end

mutual

/-- Character count of the descriptor's `struct_char` string: `"B"` is 1,
`"16s"` is 3 (the digits of the length plus the letter), a nested record's is
the sum over its fields.  `_compile_format_string` uses this string's `len`
as the primitive count of a `SubStructField`. -/
def Desc.charLen : Desc → Nat
  | .intF _ _ => 1
  | .boolF _ => 1
  | .bytesF n _ => numDigits n + 1
  | .textF n _ _ => numDigits n + 1
  | .arrayF _ k => numDigits k + 1
  | .subF _ fields => fieldsCharLen fields

/-- Character count of the concatenated `struct_char`s of a field list. -/
def fieldsCharLen : List (String × Desc) → Nat
  | [] => 0
  | (_, d) :: rest => d.charLen + fieldsCharLen rest

end

/-- The `num_primitives` recorded in the field map by
`_compile_format_string`: `len(struct_char)` for a `SubStructField`,
`get_primitive_count()` (the element count) for an `ArrayField`, `1`
otherwise.  For a nested record whose fields are all one-character scalars
this equals the true primitive count, but not in general. -/
def Desc.numPrims : Desc → Nat
  | .subF ord fields => Desc.charLen (.subF ord fields)
  | .arrayF _ k => k
  | _ => 1

/-- `get_validator()` of each descriptor, as composed in `descriptors.py`. -/
def Desc.validator : Desc → PyValue → Bool
  | .intF c check, v =>
      v.isIntLike &&
        (decide (c.limits.1 ≤ v.intVal) && decide (v.intVal ≤ c.limits.2)) &&
        check v
  | .boolF check, v => v.isBool && check v
  | .bytesF n check, v =>
      (match v with
       | .bytes bs => bs.length == n
       | _ => false) && check v
  | .textF n enc check, v =>
      (match v with
       | .str s =>
           match enc.encode s with
           | some e => decide (e.length ≤ n)
           | none => false
       | _ => false) && check v
  | .arrayF item k, v =>
      match v with
      | .list items => items.length == k && items.all (fun x => item.validator x)
      | _ => false
  | .subF _ _, _ => true

mutual

/-- A value is a record of the descriptor's shape and every field value at
every nesting level passes its validator.  For leaf descriptors this is
exactly `get_validator`; for a nested record it additionally demands an
actual sub-record instance whose own fields validate, which is what
`value.pack()` enforces when `_flatten_values` recurses into the child. -/
def Desc.deepValid : Desc → PyValue → Bool
  | .subF _ fields, v =>
      match v with
      | .record vs => fieldsDeepValid fields vs
      | _ => false
  | d, v => d.validator v

def fieldsDeepValid : List (String × Desc) → List PyValue → Bool
  | [], [] => true
  | (_, d) :: fs, v :: vs => d.deepValid v && fieldsDeepValid fs vs
  | _, _ => false

end

mutual

/-- Every integer value in the record also lies within the *wire* range of its
format character (the standard-size range the platform encoder enforces).
This coincides with the declared `_INTEGER_LIMITS` range for every character
except `l`/`L`, whose declared range is 8-byte while the wire uses 4 bytes. -/
def Desc.wireOk : Desc → PyValue → Bool
  | .intF c _, v => decide (c.wireMin ≤ v.intVal) && decide (v.intVal ≤ c.wireMax)
  | .arrayF item _, v =>
      match v with
      | .list items => items.all (fun x => item.wireOk x)
      | _ => true
  | .subF _ fields, v =>
      match v with
      | .record vs => fieldsWireOk fields vs
      | _ => true
  | _, _ => true

def fieldsWireOk : List (String × Desc) → List PyValue → Bool
  | [], _ => true
  | _, [] => true
  | (_, d) :: fs, v :: vs => d.wireOk v && fieldsWireOk fs vs

end

mutual

/-- The constraints descriptor constructors enforce with `FormatError`:
positive blob lengths, positive array counts with scalar items, explicit
byte order on nested records (their own `@struct` application enforced it). -/
def Desc.wf : Desc → Bool
  | .intF _ _ => true
  | .boolF _ => true
  | .bytesF n _ => 0 < n
  | .textF n _ _ => 0 < n
  | .arrayF item k =>
      0 < k &&
        (match item with
         | .intF _ _ => true
         | .boolF _ => true
         | _ => false)
  | .subF ord fields => ord.isExplicit && fieldsWf fields

def fieldsWf : List (String × Desc) → Bool
  | [] => true
  | (_, d) :: rest => d.wf && fieldsWf rest

end

/-- A scalar (single-token int/bool) descriptor. -/
def Desc.isScalar : Desc → Bool
  | .intF _ _ => true
  | .boolF _ => true
  | _ => false

/-- Every nested sub-record of the descriptor has only scalar fields (the
shape for which the compiled `num_primitives` bookkeeping is exact). -/
def Desc.scalarChildren : Desc → Bool
  | .subF _ fields => fields.all (fun f => f.2.isScalar)
  | _ => true

/-- A compiled schema: the explicit byte order passed to `@struct` plus the
ordered field map. -/
structure Schema where
  order : ByteOrder
  fields : List (String × Desc)

/-- The compiled token sequence of the schema's format string. -/
def Schema.prims (s : Schema) : List Prim := fieldsPrims s.fields

/-- `struct.calcsize` of the compiled format string (explicit orders add no
padding, so it is the plain sum of token sizes). -/
def Schema.size (s : Schema) : Nat := primsSize s.prims

/-- Constraints the decorator and the descriptor constructors enforce. -/
def Schema.wf (s : Schema) : Bool := s.order.isExplicit && fieldsWf s.fields

def Schema.deepValid (s : Schema) (r : PyValue) : Bool :=
  match r with
  | .record vs => fieldsDeepValid s.fields vs
  | _ => false

def Schema.wireOk (s : Schema) (r : PyValue) : Bool :=
  match r with
  | .record vs => fieldsWireOk s.fields vs
  | _ => true

def Schema.scalarChildren (s : Schema) : Bool :=
  s.fields.all (fun f => f.2.scalarChildren)

/-! ## Error taxonomy (`exceptions.py`) -/

/-- Failure outcomes of the codec.  `validation`, `packing`, and the three
unpacking constructors model the library's own exception taxonomy
(`ValidationError`, `PackingError`, `UnpackingError`); `rawError` models an
exception escaping outside that taxonomy (e.g. an unwrapped decode error). -/
inductive Err where
  | formatError
  | validation (field : String)
  | packing
  | tooSmall (expected got : Nat)
  | tooSmallFrom (expected offset bufLen : Nat)
  | decodeFailed
  | corrupted (field : String)
  | rawError
  deriving DecidableEq, Repr

/-- The constructors that model an `UnpackingError`. -/
def Err.isUnpackingError : Err → Bool
  | .tooSmall _ _ => true
  | .tooSmallFrom _ _ _ => true
  | .decodeFailed => true
  | .corrupted _ => true
  | _ => false

/-! ## The record codec (`core.py`) -/

/-- `TextField.pack_value`: encode, reject overflow with `PackingError`,
right-pad with zero bytes to the fixed length. -/
def textPackValue (n : Nat) (enc : PyEncoding) (s : List Nat) : Except Err (List Nat) :=
  match enc.encode s with
  | none => .error .rawError
  | some e =>
      if n < e.length then .error .packing
      else .ok (e ++ List.replicate (n - e.length) 0)

/-- `TextField.unpack_value`: truncate the blob at its first zero byte and
decode (`none` from the codec is an unwrapped exception). -/
def textUnpackValue (enc : PyEncoding) (bs : List Nat) : Except Err (List Nat) :=
  match enc.decode (truncAtZero bs) with
  | some s => .ok s
  | none => .error .rawError

mutual

/-- One field's step of `_flatten_values`: validate, then flatten.  A nested
record is packed by its own class's `pack` (which revalidates and can fail
with `ValidationError` or `PackingError`) and the bytes are immediately
re-decoded with the child's format string into its primitive sequence. -/
def flattenField (nm : String) (d : Desc) (v : PyValue) : Except Err (List PyValue) :=
  if d.validator v then
    match d, v with
    | .subF cord cfields, .record vs =>
        if vs.length = cfields.length then
          match flattenFields cfields vs with
          | .error e => .error e
          | .ok flat =>
              match wirePackList cord.isLE (fieldsPrims cfields) flat with
              | .error _ => .error .packing
              | .ok cbs =>
                  match wireUnpackList cord.isLE (fieldsPrims cfields) cbs with
                  | .error _ => .error .rawError
                  | .ok ws => .ok ws
        else .error .rawError
    | .subF _ _, _ => .error .rawError
    | .textF n enc _, .str cs =>
        match textPackValue n enc cs with
        | .error e => .error e
        | .ok bs => .ok [.bytes bs]
    | .textF _ _ _, _ => .error .rawError
    | .bytesF _ _, _ => .ok [v]
    | .arrayF _ _, .list items => .ok items
    | .arrayF _ _, _ => .error .rawError
    | _, _ => .ok [v]
  else .error (.validation nm)

/-- `_flatten_values` over the ordered field map. -/
def flattenFields : List (String × Desc) → List PyValue → Except Err (List PyValue)
  | [], [] => .ok []
  | (nm, d) :: fs, v :: vs =>
      match flattenField nm d v with
      | .error e => .error e
      | .ok chunk =>
          match flattenFields fs vs with
          | .error e => .error e
          | .ok rest => .ok (chunk ++ rest)
  | _, _ => .error .rawError

end

/-- The generated `pack` method: flatten (validating), then binary-encode with
the compiled format string, wrapping a `struct.error` as `PackingError`. -/
def packSchema (s : Schema) (r : PyValue) : Except Err (List Nat) :=
  match r with
  | .record vs =>
      if vs.length = s.fields.length then
        match flattenFields s.fields vs with
        | .error e => .error e
        | .ok flat =>
            match wirePackList s.order.isLE s.prims flat with
            | .ok bs => .ok bs
            | .error _ => .error .packing
      else .error .rawError
  | _ => .error .rawError

/-- The per-field reconstruction step of the generated `unpack` method, applied
to the `num_primitives`-long slice of decoded values consumed for the field. -/
def reconstructField (nm : String) (d : Desc) (slice : List PyValue) : Except Err PyValue :=
  match d with
  | .subF _ cfields =>
      if slice.length = cfields.length then .ok (.record slice) else .error .rawError
  | .arrayF _ _ => .ok (.list slice)
  | .textF _ enc _ =>
      match slice with
      | [] => .error (.corrupted nm)
      | raw :: _ =>
          match raw with
          | .bytes bs => (textUnpackValue enc bs).map PyValue.str
          | _ => .error .rawError
  | .bytesF _ _ =>
      match slice with
      | [] => .error (.corrupted nm)
      | x :: _ => .ok x
  | _ =>
      match slice with
      | [] => .error (.corrupted nm)
      | x :: _ => .ok x

/-- The per-field reconstruction step of `unpack_from`, which checks the
empty-slice condition up front for every field. -/
def reconstructFieldFrom (nm : String) (d : Desc) (slice : List PyValue) : Except Err PyValue :=
  if slice.isEmpty && 0 < d.numPrims then .error (.corrupted nm)
  else
    match d with
    | .subF _ cfields =>
        if slice.length = cfields.length then .ok (.record slice) else .error .rawError
    | .arrayF _ _ => .ok (.list slice)
    | .textF _ enc _ =>
        match slice with
        | [] => .error .rawError
        | raw :: _ =>
            match raw with
            | .bytes bs => (textUnpackValue enc bs).map PyValue.str
            | _ => .error .rawError
    | .bytesF _ _ =>
        match slice with
        | [] => .error .rawError
        | x :: _ => .ok x
    | _ =>
        match slice with
        | [] => .error .rawError
        | x :: _ => .ok x

/-- The value-cursor walk shared by `unpack` and `unpack_from`: each field
consumes `num_primitives` entries of the flat decoded sequence (Python slicing
is lenient, as are `take`/`drop`). -/
def unpackWalk (recon : String → Desc → List PyValue → Except Err PyValue) :
    List (String × Desc) → List PyValue → Except Err (List PyValue)
  | [], _ => .ok []
  | (nm, d) :: fs, vals =>
      match recon nm d (vals.take d.numPrims) with
      | .error e => .error e
      | .ok v =>
          match unpackWalk recon fs (vals.drop d.numPrims) with
          | .error e => .error e
          | .ok rest => .ok (v :: rest)

/-- The generated `unpack` classmethod: size pre-check, binary decode
(`struct.unpack` demands the exact compiled size), then the cursor walk. -/
def unpackSchema (s : Schema) (buf : List Nat) : Except Err PyValue :=
  if buf.length < s.size then .error (.tooSmall s.size buf.length)
  else
    match wireUnpackList s.order.isLE s.prims buf with
    | .error _ => .error .decodeFailed
    | .ok vals =>
        match unpackWalk reconstructField s.fields vals with
        | .error e => .error e
        | .ok args => .ok (.record args)

/-- The generated `unpack_from` classmethod: offset-aware size pre-check,
binary decode of the `size`-byte window at the offset, then the cursor walk. -/
def unpackFromSchema (s : Schema) (buf : List Nat) (off : Nat) : Except Err PyValue :=
  if buf.length < off + s.size then .error (.tooSmallFrom s.size off buf.length)
  else
    match wireUnpackList s.order.isLE s.prims ((buf.drop off).take s.size) with
    | .error _ => .error .decodeFailed
    | .ok vals =>
        match unpackWalk reconstructFieldFrom s.fields vals with
        | .error e => .error e
        | .ok args => .ok (.record args)

/-- `struct.pack_into`: the platform call itself rejects a window that does not
fit (`struct.error`), then writes the encoded bytes in place. -/
def wirePackInto (le : Bool) (ps : List Prim) (vs : List PyValue)
    (buf : List Nat) (off : Nat) : Except Unit (List Nat) :=
  if buf.length < off + primsSize ps then .error ()
  else
    match wirePackList le ps vs with
    | .error e => .error e
    | .ok bs => .ok (buf.take off ++ bs ++ buf.drop (off + bs.length))

/-- The generated `pack_into` method: flatten (validating), then hand the
buffer and offset straight to the platform encoder — no size pre-check of its
own — wrapping any `struct.error` as `PackingError`. -/
def packIntoSchema (s : Schema) (r : PyValue) (buf : List Nat) (off : Nat) :
    Except Err (List Nat) :=
  match r with
  | .record vs =>
      if vs.length = s.fields.length then
        match flattenFields s.fields vs with
        | .error e => .error e
        | .ok flat =>
            match wirePackInto s.order.isLE s.prims flat buf off with
            | .ok newbuf => .ok newbuf
            | .error _ => .error .packing
      else .error .rawError
  | _ => .error .rawError

/-! ## FloatField, modelled from the spec

`FloatField` is imported by `safestruct/__init__.py` and exercised by
`tests/test_float.py`, but its definition is missing from
`src/safestruct/descriptors.py`. -/

/-- Leading byte-order characters stripped before a format character is
classified, as `IntField` does with `lstrip("@=<>!")` (the test suite shows
`FloatField("<d")` is accepted alongside `FloatField("f")`/`FloatField("d")`). -/
def lstripOrderChars (cs : List Char) : List Char :=
  cs.dropWhile (fun ch => ch == '@' || ch == '=' || ch == '<' || ch == '>' || ch == '!')

/-- Modelled from the spec: the `FloatField` descriptor constructor.  "Float
(width): accepts only the two IEEE widths (32/64 bit); any other requested
width fails at descriptor construction with `FormatError`."  The two widths
are requested through the format characters `f` and `d`, as the `float32` /
`float64` aliases in `__init__.py` and the test suite do.  The result records
whether the 64-bit width was chosen. -/
def mkFloatField (chars : List Char) : Except Err Bool :=
  match lstripOrderChars chars with
  | ['f'] => .ok false
  | ['d'] => .ok true
  | _ => .error .formatError

/-- Modelled from the spec: `FloatField`'s validator "rejects non-numeric
values", chained with the caller-supplied check as every descriptor's
validator is. -/
def floatValidator (check : PyValue → Bool) (v : PyValue) : Bool :=
  v.isNumeric && check v

/-! ## Packability of a value against a token -/

/-- `isinstance(value, (bytes, bytearray))`-shaped test used by the wire
layer's `s` code. -/
def PyValue.isBytes : PyValue → Bool
  | .bytes _ => true
  | _ => false

/-- Whether the platform encoder accepts a value for a token (independent of
byte direction): integer codes need an int-like value within the wire range,
`?` accepts anything, `Ns` needs a bytes object. -/
def primOk : Prim → PyValue → Bool
  | .pInt c, v =>
      v.isIntLike && (decide (c.wireMin ≤ v.intVal) && decide (v.intVal ≤ c.wireMax))
  | .pBool, _ => true
  | .pBytes _, v => v.isBytes

/-- Pairwise packability, including the argument-count agreement
`struct.pack` demands. -/
def allPrimOk : List Prim → List PyValue → Bool
  | [], [] => true
  | p :: ps, v :: vs => primOk p v && allPrimOk ps vs
  | _, _ => false

@[simp] theorem intVal_int (n : Int) : (PyValue.int n).intVal = n := rfl

@[simp] theorem intVal_bool (b : Bool) :
    (PyValue.bool b).intVal = if b then 1 else 0 := rfl

@[simp] theorem isIntLike_int (n : Int) : (PyValue.int n).isIntLike = true := rfl

@[simp] theorem isIntLike_bool (b : Bool) : (PyValue.bool b).isIntLike = true := rfl

@[simp] theorem truthy_bool (b : Bool) : (PyValue.bool b).truthy = b := rfl

theorem packPrim_isOk (le : Bool) (p : Prim) (v : PyValue) :
    (packPrim le p v).isOk = primOk p v := by
  cases p with
  | pInt c =>
      simp only [packPrim, primOk]
      by_cases hint : v.isIntLike
      · rw [if_pos hint, hint]
        by_cases hr : c.wireMin ≤ v.intVal ∧ v.intVal ≤ c.wireMax
        · rw [if_pos hr]
          simp [Except.isOk, Except.toBool, hr.1, hr.2]
        · rw [if_neg hr]
          rcases Classical.not_and_iff_or_not_not.mp hr with h | h <;>
            simp [Except.isOk, Except.toBool, h]
      · simp only [Bool.not_eq_true] at hint
        rw [if_neg (by simp [hint]), hint]
        simp [Except.isOk, Except.toBool]
  | pBool => simp [packPrim, primOk, Except.isOk, Except.toBool]
  | pBytes n =>
      cases v <;> simp [packPrim, primOk, PyValue.isBytes, Except.isOk, Except.toBool]

theorem wirePackList_isOk (le : Bool) (ps : List Prim) (vs : List PyValue) :
    (wirePackList le ps vs).isOk = allPrimOk ps vs := by
  induction ps generalizing vs with
  | nil => cases vs <;> simp [wirePackList, allPrimOk, Except.isOk, Except.toBool]
  | cons p ps ih =>
      cases vs with
      | nil => simp [wirePackList, allPrimOk, Except.isOk, Except.toBool]
      | cons v vs =>
          simp only [wirePackList, allPrimOk, bind, Except.bind]
          rw [← packPrim_isOk le p v, ← ih vs]
          cases hp : packPrim le p v <;> cases hrest : wirePackList le ps vs <;>
            simp [Except.isOk, Except.toBool]

/-- Normalisation keeps a packable value packable. -/
theorem primOk_wireNorm (p : Prim) (v : PyValue) (h : primOk p v = true) :
    primOk p (wireNorm p v) = true := by
  cases p with
  | pInt c =>
      simp only [primOk, Bool.and_eq_true, decide_eq_true_eq] at h
      simp [primOk, wireNorm, h.2.1, h.2.2]
  | pBool => rfl
  | pBytes n =>
      cases v <;> simp_all [primOk, wireNorm, PyValue.isBytes]

/-- Normalisation does not change the bytes a value packs to. -/
theorem packPrim_wireNorm (le : Bool) (p : Prim) (v : PyValue)
    (h : primOk p v = true) :
    packPrim le p (wireNorm p v) = packPrim le p v := by
  cases p with
  | pInt c =>
      simp only [primOk, Bool.and_eq_true, decide_eq_true_eq] at h
      obtain ⟨h1, _, _⟩ := h
      cases v with
      | int n => simp [packPrim, wireNorm, PyValue.intVal]
      | bool b => simp [packPrim, wireNorm, PyValue.isIntLike, PyValue.intVal]
      | float bits => exact absurd h1 (by simp [PyValue.isIntLike])
      | bytes bs => exact absurd h1 (by simp [PyValue.isIntLike])
      | str cs => exact absurd h1 (by simp [PyValue.isIntLike])
      | list ws => exact absurd h1 (by simp [PyValue.isIntLike])
      | record ws => exact absurd h1 (by simp [PyValue.isIntLike])
  | pBool =>
      simp [packPrim, wireNorm, PyValue.truthy]
  | pBytes n =>
      cases v <;> simp_all [primOk, PyValue.isBytes]
      simp [packPrim, wireNorm, padTrunc_of_length_eq n _ (padTrunc_length n _)]

/-- Normalisation is idempotent. -/
theorem wireNorm_idem (p : Prim) (v : PyValue) :
    wireNorm p (wireNorm p v) = wireNorm p v := by
  cases p with
  | pInt c => simp [wireNorm, PyValue.intVal]
  | pBool => simp [wireNorm, PyValue.truthy]
  | pBytes n =>
      cases v <;> simp [wireNorm]
      exact padTrunc_of_length_eq n _ (padTrunc_length n _)

/-! ## The comparison the round-trip law uses

"text fields compare after padding-strip; bytes/array/nested fields compare
structurally" — every field compares with Python `==` except text fields,
which compare after truncation at the first NUL codepoint. -/

/-- Field comparison of the round-trip law. -/
def fieldEqSpec (d : Desc) (a b : PyValue) : Bool :=
  match d with
  | .textF _ _ _ =>
      match a, b with
      | .str x, .str y => x.takeWhile (· ≠ 0) == y.takeWhile (· ≠ 0)
      | _, _ => pyEq a b
  | _ => pyEq a b

/-- Fieldwise comparison of two records under the round-trip law. -/
def fieldsEqSpec : List (String × Desc) → List PyValue → List PyValue → Bool
  | [], [], [] => true
  | (_, d) :: fs, x :: xs, y :: ys => fieldEqSpec d x y && fieldsEqSpec fs xs ys
  | _, _, _ => false

/-- Record comparison of the round-trip law. -/
def recordEqSpec (fields : List (String × Desc)) (a b : PyValue) : Bool :=
  match a, b with
  | .record xs, .record ys => fieldsEqSpec fields xs ys
  | _, _ => false

/-- The encoding-regularity each text field of a schema needs for the
round-trip law (trivial for every other field kind). -/
def Desc.goodEnc : Desc → Prop
  | .textF _ enc _ => GoodEncoding enc
  | _ => True

def Schema.goodEnc (s : Schema) : Prop := ∀ f ∈ s.fields, Desc.goodEnc f.2

/-! ## Helper lemmas -/

theorem isOk_exists {α : Type _} (e : Except Unit α) (h : e.isOk = true) :
    ∃ a, e = .ok a := by
  cases e with
  | error err => simp [Except.isOk, Except.toBool] at h
  | ok a => exact ⟨a, rfl⟩

mutual

theorem pyEq_refl : ∀ (v : PyValue), pyEq v v = true
  | .int n => by simp [pyEq]
  | .bool b => by simp [pyEq]
  | .float a => by simp [pyEq]
  | .bytes bs => by simp [pyEq]
  | .str cs => by simp [pyEq]
  | .list vs => by rw [pyEq]; exact pyEqList_refl vs
  | .record vs => by rw [pyEq]; exact pyEqList_refl vs

theorem pyEqList_refl : ∀ (vs : List PyValue), pyEqList vs vs = true
  | [] => rfl
  | v :: vs => by
      rw [pyEqList]
      exact Bool.and_eq_true _ _ |>.mpr ⟨pyEq_refl v, pyEqList_refl vs⟩

end

theorem allPrimOk_length (ps : List Prim) (vs : List PyValue)
    (h : allPrimOk ps vs = true) : vs.length = ps.length := by
  induction ps generalizing vs with
  | nil => cases vs with
      | nil => rfl
      | cons v vs => simp [allPrimOk] at h
  | cons p ps ih =>
      cases vs with
      | nil => simp [allPrimOk] at h
      | cons v vs =>
          simp only [allPrimOk, Bool.and_eq_true] at h
          simp [ih vs h.2]

theorem allPrimOk_append (ps1 ps2 : List Prim) (vs1 vs2 : List PyValue)
    (h1 : allPrimOk ps1 vs1 = true) (h2 : allPrimOk ps2 vs2 = true) :
    allPrimOk (ps1 ++ ps2) (vs1 ++ vs2) = true := by
  induction ps1 generalizing vs1 with
  | nil => cases vs1 with
      | nil => simpa using h2
      | cons v vs => simp [allPrimOk] at h1
  | cons p ps ih =>
      cases vs1 with
      | nil => simp [allPrimOk] at h1
      | cons v vs =>
          simp only [allPrimOk, Bool.and_eq_true] at h1
          simp only [List.cons_append, allPrimOk, Bool.and_eq_true]
          exact ⟨h1.1, ih vs h1.2⟩

theorem allPrimOk_replicate (p : Prim) (items : List PyValue)
    (h : ∀ x ∈ items, primOk p x = true) :
    allPrimOk (List.replicate items.length p) items = true := by
  induction items with
  | nil => rfl
  | cons x xs ih =>
      simp only [List.length_cons, List.replicate_succ, allPrimOk, Bool.and_eq_true]
      exact ⟨h x (by simp), ih (fun y hy => h y (by simp [hy]))⟩

theorem allPrimOk_zipWith_norm (ps : List Prim) (vs : List PyValue)
    (h : allPrimOk ps vs = true) :
    allPrimOk ps (List.zipWith wireNorm ps vs) = true := by
  induction ps generalizing vs with
  | nil => cases vs <;> simp_all [allPrimOk]
  | cons p ps ih =>
      cases vs with
      | nil => simp [allPrimOk] at h
      | cons v vs =>
          simp only [allPrimOk, Bool.and_eq_true] at h
          simp only [List.zipWith_cons_cons, allPrimOk, Bool.and_eq_true]
          exact ⟨primOk_wireNorm p v h.1, ih vs h.2⟩

theorem zipWith_norm_append (ps1 ps2 : List Prim) (vs1 vs2 : List PyValue)
    (h : vs1.length = ps1.length) :
    List.zipWith wireNorm (ps1 ++ ps2) (vs1 ++ vs2) =
      List.zipWith wireNorm ps1 vs1 ++ List.zipWith wireNorm ps2 vs2 := by
  induction ps1 generalizing vs1 with
  | nil => cases vs1 with
      | nil => simp
      | cons v vs => simp at h
  | cons p ps ih =>
      cases vs1 with
      | nil => simp at h
      | cons v vs =>
          simp only [List.length_cons] at h
          simp [ih vs (by omega)]

theorem zipWith_norm_idem (ps : List Prim) (vs : List PyValue) :
    List.zipWith wireNorm ps (List.zipWith wireNorm ps vs) =
      List.zipWith wireNorm ps vs := by
  induction ps generalizing vs with
  | nil => simp
  | cons p ps ih =>
      cases vs with
      | nil => simp
      | cons v vs => simp [wireNorm_idem, ih vs]

theorem takeWhile_append_replicate_zero (e : List Nat) (m : Nat) :
    (e ++ List.replicate m 0).takeWhile (· ≠ 0) = e.takeWhile (· ≠ 0) := by
  induction e with
  | nil =>
      simp only [List.nil_append, List.takeWhile_nil]
      induction m with
      | zero => rfl
      | succ m ih => simp [List.replicate_succ, List.takeWhile_cons]
  | cons b bs ih =>
      by_cases hb : b = 0
      · simp [List.takeWhile_cons, hb]
      · simp only [decide_not] at ih
        simp [List.takeWhile_cons, hb, ih]

theorem takeWhile_idem {α : Type _} (p : α → Bool) (l : List α) :
    (l.takeWhile p).takeWhile p = l.takeWhile p := by
  induction l with
  | nil => rfl
  | cons x xs ih =>
      by_cases hx : p x
      · simp [List.takeWhile_cons, hx, ih]
      · simp [List.takeWhile_cons, hx]

theorem zipWith_replicate_map (f : Prim → PyValue → PyValue) (p : Prim)
    (l : List PyValue) :
    List.zipWith f (List.replicate l.length p) l = l.map (f p) := by
  induction l with
  | nil => rfl
  | cons x xs ih => simp [List.replicate_succ, ih]

/-! ## Scalar-field lemmas -/

theorem scalar_prims (d : Desc) (h : d.isScalar = true) :
    d.prims = [scalarPrim d] := by
  cases d <;> simp_all [Desc.isScalar, Desc.prims, scalarPrim]

theorem scalar_charLen (d : Desc) (h : d.isScalar = true) : d.charLen = 1 := by
  cases d <;> simp_all [Desc.isScalar, Desc.charLen]

theorem scalar_numPrims (d : Desc) (h : d.isScalar = true) : d.numPrims = 1 := by
  cases d <;> simp_all [Desc.isScalar, Desc.numPrims]

theorem scalar_deepValid (d : Desc) (v : PyValue) (h : d.isScalar = true) :
    d.deepValid v = d.validator v := by
  cases d <;> simp_all [Desc.isScalar, Desc.deepValid]

theorem scalar_flatten (nm : String) (d : Desc) (v : PyValue)
    (h : d.isScalar = true) (hv : d.validator v = true) :
    flattenField nm d v = .ok [v] := by
  cases d <;> simp_all [Desc.isScalar, flattenField]

theorem scalar_validator_primOk (d : Desc) (v : PyValue) (h : d.isScalar = true)
    (hv : d.validator v = true) (hw : d.wireOk v = true) :
    primOk (scalarPrim d) v = true := by
  cases d with
  | intF c check =>
      simp only [Desc.validator, Bool.and_eq_true] at hv
      simp only [Desc.wireOk, Bool.and_eq_true] at hw
      simp [scalarPrim, primOk, hv.1.1, hw.1, hw.2]
  | boolF check => rfl
  | _ => simp [Desc.isScalar] at h

theorem scalar_pyEq_norm (d : Desc) (v : PyValue) (h : d.isScalar = true)
    (hv : d.validator v = true) :
    pyEq v (wireNorm (scalarPrim d) v) = true := by
  cases d with
  | intF c check =>
      simp only [Desc.validator, Bool.and_eq_true] at hv
      have hint := hv.1.1
      cases v with
      | int n => simp [scalarPrim, wireNorm, pyEq]
      | bool b => cases b <;> simp [scalarPrim, wireNorm, pyEq]
      | float bits => simp [PyValue.isIntLike] at hint
      | bytes bs => simp [PyValue.isIntLike] at hint
      | str cs => simp [PyValue.isIntLike] at hint
      | list ws => simp [PyValue.isIntLike] at hint
      | record ws => simp [PyValue.isIntLike] at hint
  | boolF check =>
      simp only [Desc.validator, Bool.and_eq_true] at hv
      have hb := hv.1
      cases v with
      | bool b => simp [scalarPrim, wireNorm, pyEq]
      | int n => simp [PyValue.isBool] at hb
      | float bits => simp [PyValue.isBool] at hb
      | bytes bs => simp [PyValue.isBool] at hb
      | str cs => simp [PyValue.isBool] at hb
      | list ws => simp [PyValue.isBool] at hb
      | record ws => simp [PyValue.isBool] at hb
  | _ => simp [Desc.isScalar] at h

/-! ## Arity and counting lemmas -/

theorem fieldsDeepValid_arity (fields : List (String × Desc)) (vs : List PyValue)
    (h : fieldsDeepValid fields vs = true) : vs.length = fields.length := by
  induction fields generalizing vs with
  | nil => cases vs with
      | nil => rfl
      | cons v vs => simp [fieldsDeepValid] at h
  | cons f fs ih =>
      obtain ⟨nm, d⟩ := f
      cases vs with
      | nil => simp [fieldsDeepValid] at h
      | cons v vs =>
          simp only [fieldsDeepValid, Bool.and_eq_true] at h
          simp [ih vs h.2]

theorem fields_scalar_charLen (fields : List (String × Desc))
    (h : fields.all (fun f => f.2.isScalar) = true) :
    fieldsCharLen fields = fields.length := by
  induction fields with
  | nil => rfl
  | cons f fs ih =>
      simp only [List.all_cons, Bool.and_eq_true] at h
      simp [fieldsCharLen, scalar_charLen f.2 h.1, ih h.2]
      omega

theorem fields_scalar_prims_length (fields : List (String × Desc))
    (h : fields.all (fun f => f.2.isScalar) = true) :
    (fieldsPrims fields).length = fields.length := by
  induction fields with
  | nil => rfl
  | cons f fs ih =>
      simp only [List.all_cons, Bool.and_eq_true] at h
      simp [fieldsPrims, scalar_prims f.2 h.1, ih h.2]

/-- Where the `num_primitives` bookkeeping is exact: for every field whose
nested sub-records (if any) have only scalar fields, the compiled count equals
the true token count. -/
theorem numPrims_eq_prims_length (d : Desc) (hsc : d.scalarChildren = true) :
    d.numPrims = d.prims.length := by
  cases d with
  | intF c check => rfl
  | boolF check => rfl
  | bytesF n check => rfl
  | textF n enc check => rfl
  | arrayF item k => simp [Desc.numPrims, Desc.prims]
  | subF ord fields =>
      simp only [Desc.scalarChildren] at hsc
      simp [Desc.numPrims, Desc.charLen, fields_scalar_charLen fields hsc,
        Desc.prims, fields_scalar_prims_length fields hsc]

theorem flattenFields_scalar (fields : List (String × Desc)) (vs : List PyValue)
    (hs : fields.all (fun f => f.2.isScalar) = true)
    (hv : fieldsDeepValid fields vs = true) :
    flattenFields fields vs = .ok vs := by
  induction fields generalizing vs with
  | nil => cases vs with
      | nil => rfl
      | cons v vs => simp [fieldsDeepValid] at hv
  | cons f fs ih =>
      obtain ⟨nm, d⟩ := f
      simp only [List.all_cons, Bool.and_eq_true] at hs
      cases vs with
      | nil => simp [fieldsDeepValid] at hv
      | cons v vs =>
          simp only [fieldsDeepValid, Bool.and_eq_true] at hv
          have hval : d.validator v = true := by
            rw [← scalar_deepValid d v hs.1]; exact hv.1
          rw [flattenFields, scalar_flatten nm d v hs.1 hval, ih vs hs.2 hv.2]
          rfl

theorem pyEqList_scalar_norm (fields : List (String × Desc)) (vs : List PyValue)
    (hs : fields.all (fun f => f.2.isScalar) = true)
    (hv : fieldsDeepValid fields vs = true) :
    pyEqList vs (List.zipWith wireNorm (fieldsPrims fields) vs) = true := by
  induction fields generalizing vs with
  | nil => cases vs with
      | nil => rfl
      | cons v vs => simp [fieldsDeepValid] at hv
  | cons f fs ih =>
      obtain ⟨nm, d⟩ := f
      simp only [List.all_cons, Bool.and_eq_true] at hs
      cases vs with
      | nil => simp [fieldsDeepValid] at hv
      | cons v vs =>
          simp only [fieldsDeepValid, Bool.and_eq_true] at hv
          have hval : d.validator v = true := by
            rw [← scalar_deepValid d v hs.1]; exact hv.1
          rw [fieldsPrims, scalar_prims d hs.1]
          simp only [List.cons_append, List.nil_append, List.zipWith_cons_cons,
            pyEqList, Bool.and_eq_true]
          exact ⟨scalar_pyEq_norm d v hs.1 hval, ih vs hs.2 hv.2⟩

/-! ## Flattening succeeds on structurally valid, wire-range-valid records -/

theorem flattenOkAux : ∀ k : Nat,
    (∀ (nm : String) (d : Desc) (v : PyValue), sizeOf d ≤ k →
      d.wf = true → d.deepValid v = true → d.wireOk v = true →
      ∃ chunk, flattenField nm d v = .ok chunk ∧ allPrimOk d.prims chunk = true) ∧
    (∀ (fields : List (String × Desc)) (vs : List PyValue), sizeOf fields ≤ k →
      fieldsWf fields = true → fieldsDeepValid fields vs = true →
      fieldsWireOk fields vs = true →
      ∃ flat, flattenFields fields vs = .ok flat ∧
        allPrimOk (fieldsPrims fields) flat = true) := by
  intro k
  induction k using Nat.strong_induction_on with
  | _ k ih =>
  constructor
  · intro nm d v hsz hwf hv hw
    cases d with
    | intF c check =>
        simp only [Desc.deepValid] at hv
        refine ⟨[v], ?_, ?_⟩
        · simp [flattenField, hv]
        · simp only [Desc.validator, Bool.and_eq_true] at hv
          simp only [Desc.wireOk, Bool.and_eq_true] at hw
          simp [Desc.prims, allPrimOk, primOk, hv.1.1, hw.1, hw.2]
    | boolF check =>
        simp only [Desc.deepValid] at hv
        exact ⟨[v], by simp [flattenField, hv], by simp [Desc.prims, allPrimOk, primOk]⟩
    | bytesF n check =>
        simp only [Desc.deepValid] at hv
        refine ⟨[v], by simp [flattenField, hv], ?_⟩
        simp only [Desc.validator, Bool.and_eq_true] at hv
        have hbytes := hv.1
        cases v with
        | bytes bs => simp [Desc.prims, allPrimOk, primOk, PyValue.isBytes]
        | int m => simp at hbytes
        | bool b => simp at hbytes
        | float bits => simp at hbytes
        | str cs => simp at hbytes
        | list ws => simp at hbytes
        | record ws => simp at hbytes
    | textF n enc check =>
        simp only [Desc.deepValid] at hv
        have hv' := hv
        simp only [Desc.validator, Bool.and_eq_true] at hv'
        have hstr := hv'.1
        cases v with
        | str cs =>
            cases henc : enc.encode cs with
            | none => simp [henc] at hstr
            | some e =>
                simp only [henc, decide_eq_true_eq] at hstr
                refine ⟨[.bytes (e ++ List.replicate (n - e.length) 0)], ?_, ?_⟩
                · simp [flattenField, hv, textPackValue, henc,
                    if_neg (by omega : ¬ n < e.length)]
                · simp [Desc.prims, allPrimOk, primOk, PyValue.isBytes]
        | int m => simp at hstr
        | bool b => simp at hstr
        | float bits => simp at hstr
        | bytes bs => simp at hstr
        | list ws => simp at hstr
        | record ws => simp at hstr
    | arrayF item cnt =>
        simp only [Desc.deepValid] at hv
        have hv' := hv
        simp only [Desc.validator] at hv'
        simp only [Desc.wf, Bool.and_eq_true] at hwf
        have hscal : item.isScalar = true := by
          cases item <;> simp_all [Desc.isScalar]
        cases v with
        | list items =>
            simp only [Bool.and_eq_true, beq_iff_eq, List.all_eq_true] at hv'
            simp only [Desc.wireOk] at hw
            simp only [List.all_eq_true] at hw
            refine ⟨items, by simp [flattenField, hv], ?_⟩
            simp only [Desc.prims, ← hv'.1]
            exact allPrimOk_replicate (scalarPrim item) items
              (fun x hx => scalar_validator_primOk item x hscal (hv'.2 x hx) (hw x hx))
        | int m => simp at hv'
        | bool b => simp at hv'
        | float bits => simp at hv'
        | bytes bs => simp at hv'
        | str cs => simp at hv'
        | record ws => simp at hv'
    | subF cord cfields =>
        simp only [Desc.deepValid] at hv
        cases v with
        | record ws =>
            simp only [Desc.wf, Bool.and_eq_true] at hwf
            simp only [Desc.wireOk] at hw
            have hsub : sizeOf cfields < sizeOf (Desc.subF cord cfields) := by
              simp
            obtain ⟨flat, hflat, hpk⟩ :=
              (ih (sizeOf cfields) (by omega)).2 cfields ws (le_refl _) hwf.2 hv hw
            obtain ⟨cbs, hcbs⟩ := isOk_exists _
              ((wirePackList_isOk cord.isLE (fieldsPrims cfields) flat).trans hpk)
            have hunp := wireUnpack_wirePack cord.isLE (fieldsPrims cfields) flat cbs hcbs
            refine ⟨List.zipWith wireNorm (fieldsPrims cfields) flat, ?_, ?_⟩
            · have harity : ws.length = cfields.length :=
                fieldsDeepValid_arity cfields ws hv
              have hvalsub :
                  (Desc.subF cord cfields).validator (PyValue.record ws) = true := rfl
              rw [flattenField]
              simp only [hvalsub, if_true, harity, hflat, hcbs, hunp,
                eq_self_iff_true]
            · simp only [Desc.prims]
              exact allPrimOk_zipWith_norm (fieldsPrims cfields) flat hpk
        | int m => simp at hv
        | bool b => simp at hv
        | float bits => simp at hv
        | bytes bs => simp at hv
        | str cs => simp at hv
        | list ws => simp at hv
  · intro fields vs hsz hwf hv hw
    cases fields with
    | nil =>
        cases vs with
        | nil => exact ⟨[], rfl, rfl⟩
        | cons v vs => simp [fieldsDeepValid] at hv
    | cons f fs =>
        obtain ⟨nm, d⟩ := f
        cases vs with
        | nil => simp [fieldsDeepValid] at hv
        | cons v vs =>
            simp only [fieldsDeepValid, Bool.and_eq_true] at hv
            simp only [fieldsWf, Bool.and_eq_true] at hwf
            simp only [fieldsWireOk, Bool.and_eq_true] at hw
            have hd : sizeOf d < sizeOf ((nm, d) :: fs) := by
              simp
              omega
            have hfs : sizeOf fs < sizeOf ((nm, d) :: fs) := by
              simp
              try omega
            obtain ⟨chunk, hchunk, hcOk⟩ :=
              (ih (sizeOf d) (by omega)).1 nm d v (le_refl _) hwf.1 hv.1 hw.1
            obtain ⟨rest, hrest, hrOk⟩ :=
              (ih (sizeOf fs) (by omega)).2 fs vs (le_refl _) hwf.2 hv.2 hw.2
            refine ⟨chunk ++ rest, ?_, ?_⟩
            · rw [flattenFields, hchunk, hrest]
            · rw [fieldsPrims]
              exact allPrimOk_append _ _ _ _ hcOk hrOk

/-- Every field of a well-formed descriptor flattens successfully on a deep
valid, wire-range-valid value, into a chunk the wire layer accepts. -/
theorem flattenField_ok (nm : String) (d : Desc) (v : PyValue)
    (hwf : d.wf = true) (hv : d.deepValid v = true) (hw : d.wireOk v = true) :
    ∃ chunk, flattenField nm d v = .ok chunk ∧ allPrimOk d.prims chunk = true :=
  (flattenOkAux (sizeOf d)).1 nm d v (le_refl _) hwf hv hw

theorem flattenFields_ok (fields : List (String × Desc)) (vs : List PyValue)
    (hwf : fieldsWf fields = true) (hv : fieldsDeepValid fields vs = true)
    (hw : fieldsWireOk fields vs = true) :
    ∃ flat, flattenFields fields vs = .ok flat ∧
      allPrimOk (fieldsPrims fields) flat = true :=
  (flattenOkAux (sizeOf fields)).2 fields vs (le_refl _) hwf hv hw

theorem pyEqList_map_norm (item : Desc) (items : List PyValue)
    (hs : item.isScalar = true)
    (hval : ∀ x ∈ items, item.validator x = true) :
    pyEqList items (items.map (wireNorm (scalarPrim item))) = true := by
  induction items with
  | nil => rfl
  | cons x xs ih =>
      simp only [List.map_cons, pyEqList, Bool.and_eq_true]
      exact ⟨scalar_pyEq_norm item x hs (hval x (by simp)),
        ih (fun y hy => hval y (by simp [hy]))⟩

/-- One field's full round trip, under the hypotheses of the (amended)
round-trip law: the flattened chunk, wire-normalised, reconstructs to a value
the claim's comparison accepts. -/
theorem fieldRoundTrip (nm : String) (d : Desc) (v : PyValue)
    (hwf : d.wf = true) (hsc : d.scalarChildren = true) (hge : d.goodEnc)
    (hv : d.deepValid v = true) (hw : d.wireOk v = true) :
    ∃ chunk v', flattenField nm d v = .ok chunk ∧
      allPrimOk d.prims chunk = true ∧
      reconstructField nm d (List.zipWith wireNorm d.prims chunk) = .ok v' ∧
      fieldEqSpec d v v' = true := by
  cases d with
  | intF c check =>
      simp only [Desc.deepValid] at hv
      refine ⟨[v], .int v.intVal, scalar_flatten nm _ v rfl hv, ?_, ?_, ?_⟩
      · simp only [Desc.validator, Bool.and_eq_true] at hv
        simp only [Desc.wireOk, Bool.and_eq_true] at hw
        simp [Desc.prims, allPrimOk, primOk, hv.1.1, hw.1, hw.2]
      · simp [Desc.prims, wireNorm, reconstructField]
      · exact scalar_pyEq_norm (.intF c check) v rfl hv
  | boolF check =>
      simp only [Desc.deepValid] at hv
      refine ⟨[v], .bool v.truthy, scalar_flatten nm _ v rfl hv, rfl, ?_, ?_⟩
      · simp [Desc.prims, wireNorm, reconstructField]
      · exact scalar_pyEq_norm (.boolF check) v rfl hv
  | bytesF n check =>
      simp only [Desc.deepValid] at hv
      have hv' := hv
      simp only [Desc.validator, Bool.and_eq_true] at hv'
      have hbytes := hv'.1
      cases v with
      | bytes bs =>
          simp only [beq_iff_eq] at hbytes
          refine ⟨[.bytes bs], .bytes bs, by simp [flattenField, hv], ?_, ?_, ?_⟩
          · simp [Desc.prims, allPrimOk, primOk, PyValue.isBytes]
          · simp [Desc.prims, wireNorm, reconstructField,
              padTrunc_of_length_eq n bs hbytes]
          · simp [fieldEqSpec, pyEq_refl]
      | int m => simp at hbytes
      | bool b => simp at hbytes
      | float bits => simp at hbytes
      | str cs => simp at hbytes
      | list ws => simp at hbytes
      | record ws => simp at hbytes
  | textF n enc check =>
      simp only [Desc.deepValid] at hv
      have hv' := hv
      simp only [Desc.validator, Bool.and_eq_true] at hv'
      have hstr := hv'.1
      cases v with
      | str cs =>
          cases henc : enc.encode cs with
          | none => simp [henc] at hstr
          | some e =>
              simp only [henc, decide_eq_true_eq] at hstr
              have hpadlen : (e ++ List.replicate (n - e.length) 0).length = n := by
                simp
                omega
              refine ⟨[.bytes (e ++ List.replicate (n - e.length) 0)],
                .str (cs.takeWhile (· ≠ 0)), ?_, ?_, ?_, ?_⟩
              · simp [flattenField, hv, textPackValue, henc,
                  if_neg (by omega : ¬ n < e.length)]
              · simp [Desc.prims, allPrimOk, primOk, PyValue.isBytes]
              · simp only [Desc.prims, List.zipWith_cons_cons, List.zipWith_nil_right,
                  wireNorm, reconstructField,
                  padTrunc_of_length_eq n _ hpadlen]
                rw [textUnpackValue, truncAtZero_eq_takeWhile,
                  takeWhile_append_replicate_zero]
                rw [hge cs e henc]
                rfl
              · simp [fieldEqSpec, takeWhile_idem]
      | int m => simp at hstr
      | bool b => simp at hstr
      | float bits => simp at hstr
      | bytes bs => simp at hstr
      | list ws => simp at hstr
      | record ws => simp at hstr
  | arrayF item cnt =>
      simp only [Desc.deepValid] at hv
      have hv' := hv
      simp only [Desc.validator] at hv'
      simp only [Desc.wf, Bool.and_eq_true] at hwf
      have hscal : item.isScalar = true := by
        cases item <;> simp_all [Desc.isScalar]
      cases v with
      | list items =>
          simp only [Bool.and_eq_true, beq_iff_eq, List.all_eq_true] at hv'
          simp only [Desc.wireOk, List.all_eq_true] at hw
          refine ⟨items, .list (items.map (wireNorm (scalarPrim item))),
            by simp [flattenField, hv], ?_, ?_, ?_⟩
          · simp only [Desc.prims, ← hv'.1]
            exact allPrimOk_replicate (scalarPrim item) items
              (fun x hx => scalar_validator_primOk item x hscal (hv'.2 x hx) (hw x hx))
          · simp only [Desc.prims, ← hv'.1, zipWith_replicate_map, reconstructField]
          · simp only [fieldEqSpec, pyEq]
            exact pyEqList_map_norm item items hscal hv'.2
      | int m => simp at hv'
      | bool b => simp at hv'
      | float bits => simp at hv'
      | bytes bs => simp at hv'
      | str cs => simp at hv'
      | record ws => simp at hv'
  | subF cord cfields =>
      simp only [Desc.deepValid] at hv
      cases v with
      | record ws =>
          simp only [Desc.wf, Bool.and_eq_true] at hwf
          simp only [Desc.scalarChildren] at hsc
          have harity : ws.length = cfields.length := fieldsDeepValid_arity cfields ws hv
          have hflat : flattenFields cfields ws = .ok ws :=
            flattenFields_scalar cfields ws hsc hv
          obtain ⟨flat0, hflat0, hpk⟩ := flattenFields_ok cfields ws hwf.2 hv
            (by simp only [Desc.wireOk] at hw; exact hw)
          rw [hflat0] at hflat
          cases hflat
          obtain ⟨cbs, hcbs⟩ := isOk_exists _
            ((wirePackList_isOk cord.isLE (fieldsPrims cfields) ws).trans hpk)
          have hunp := wireUnpack_wirePack cord.isLE (fieldsPrims cfields) ws cbs hcbs
          have hchunklen : (List.zipWith wireNorm (fieldsPrims cfields) ws).length =
              cfields.length := by
            simp [List.length_zipWith, fields_scalar_prims_length cfields hsc, harity]
          refine ⟨List.zipWith wireNorm (fieldsPrims cfields) ws,
            .record (List.zipWith wireNorm (fieldsPrims cfields) ws), ?_, ?_, ?_, ?_⟩
          · have hvalsub :
                (Desc.subF cord cfields).validator (PyValue.record ws) = true := rfl
            rw [flattenField]
            simp only [hvalsub, if_true, harity, hflat0, hcbs, hunp,
              eq_self_iff_true]
          · simp only [Desc.prims]
            exact allPrimOk_zipWith_norm (fieldsPrims cfields) ws hpk
          · simp only [Desc.prims, zipWith_norm_idem, reconstructField]
            rw [if_pos hchunklen]
          · simp only [fieldEqSpec, pyEq]
            exact pyEqList_scalar_norm cfields ws hsc hv
      | int m => simp at hv
      | bool b => simp at hv
      | float bits => simp at hv
      | bytes bs => simp at hv
      | str cs => simp at hv
      | list ws => simp at hv

/-- Record-level round trip of the value-cursor walk: under exact
`num_primitives` bookkeeping (scalar-only sub-records) the walk reconstructs
every field from the normalised flat sequence. -/
theorem walkRoundTrip (fields : List (String × Desc)) (vs : List PyValue)
    (hwf : fieldsWf fields = true)
    (hsc : fields.all (fun f => f.2.scalarChildren) = true)
    (hge : ∀ f ∈ fields, Desc.goodEnc f.2)
    (hv : fieldsDeepValid fields vs = true)
    (hw : fieldsWireOk fields vs = true) :
    ∃ flat out, flattenFields fields vs = .ok flat ∧
      allPrimOk (fieldsPrims fields) flat = true ∧
      unpackWalk reconstructField fields
        (List.zipWith wireNorm (fieldsPrims fields) flat) = .ok out ∧
      fieldsEqSpec fields vs out = true := by
  induction fields generalizing vs with
  | nil =>
      cases vs with
      | nil => exact ⟨[], [], rfl, rfl, rfl, rfl⟩
      | cons v vs => simp [fieldsDeepValid] at hv
  | cons f fs ih =>
      obtain ⟨nm, d⟩ := f
      cases vs with
      | nil => simp [fieldsDeepValid] at hv
      | cons v vs =>
          simp only [fieldsDeepValid, Bool.and_eq_true] at hv
          simp only [fieldsWf, Bool.and_eq_true] at hwf
          simp only [fieldsWireOk, Bool.and_eq_true] at hw
          simp only [List.all_cons, Bool.and_eq_true] at hsc
          obtain ⟨chunk, v', hchunk, hcOk, hrec, heq⟩ :=
            fieldRoundTrip nm d v hwf.1 hsc.1 (hge (nm, d) (by simp)) hv.1 hw.1
          obtain ⟨flat, out, hflat, hfOk, hwalk, heqs⟩ :=
            ih vs hwf.2 hsc.2 (fun f hf => hge f (by simp [hf])) hv.2 hw.2
          have hchunklen : chunk.length = d.prims.length := allPrimOk_length _ _ hcOk
          have hnormlen : (List.zipWith wireNorm d.prims chunk).length = d.numPrims := by
            rw [numPrims_eq_prims_length d hsc.1]
            simp [List.length_zipWith, hchunklen]
          refine ⟨chunk ++ flat, v' :: out, ?_, ?_, ?_, ?_⟩
          · rw [flattenFields, hchunk, hflat]
          · rw [fieldsPrims]
            exact allPrimOk_append _ _ _ _ hcOk hfOk
          · rw [fieldsPrims, zipWith_norm_append _ _ _ _ hchunklen]
            rw [unpackWalk]
            rw [← hnormlen, List.take_left, List.drop_left, hrec, hwalk]
          · simp only [fieldsEqSpec, Bool.and_eq_true]
            exact ⟨heq, heqs⟩

/-- The full pack/unpack round trip, assembled: for a well-formed schema with
exact `num_primitives` bookkeeping and null-truncation-regular text encodings,
packing a structurally valid, validator-passing, wire-range-respecting record
and unpacking the bytes yields a record equal field-for-field under the law's
comparison. -/
theorem packUnpackRoundTrip (s : Schema) (r : PyValue)
    (hwf : s.wf = true) (hsc : s.scalarChildren = true) (hge : s.goodEnc)
    (hv : s.deepValid r = true) (hw : s.wireOk r = true) :
    ∃ bs r', packSchema s r = .ok bs ∧ bs.length = s.size ∧
      unpackSchema s bs = .ok r' ∧ recordEqSpec s.fields r r' = true := by
  cases r with
  | record vs =>
      simp only [Schema.deepValid] at hv
      simp only [Schema.wireOk] at hw
      simp only [Schema.wf, Bool.and_eq_true] at hwf
      have harity : vs.length = s.fields.length := fieldsDeepValid_arity _ _ hv
      obtain ⟨flat, out, hflat, hfOk, hwalk, heqs⟩ :=
        walkRoundTrip s.fields vs hwf.2 hsc hge hv hw
      obtain ⟨bs, hbs⟩ := isOk_exists _
        ((wirePackList_isOk s.order.isLE (fieldsPrims s.fields) flat).trans hfOk)
      have hlen : bs.length = s.size :=
        wirePackList_length _ _ _ _ hbs
      have hunp := wireUnpack_wirePack s.order.isLE (fieldsPrims s.fields) flat bs hbs
      refine ⟨bs, .record out, ?_, hlen, ?_, ?_⟩
      · rw [packSchema, if_pos harity, hflat]
        simp only [Schema.prims]
        rw [hbs]
      · rw [unpackSchema, if_neg (by omega)]
        simp only [Schema.prims]
        rw [hunp]
        simp only [hwalk]
      · simpa [recordEqSpec] using heqs
  | int n => simp [Schema.deepValid] at hv
  | bool b => simp [Schema.deepValid] at hv
  | float bits => simp [Schema.deepValid] at hv
  | bytes bs => simp [Schema.deepValid] at hv
  | str cs => simp [Schema.deepValid] at hv
  | list ws => simp [Schema.deepValid] at hv

/-! ## Helpers for the nested-composition property -/

/-- Encoding a wire-normalised value list produces the same bytes as encoding
the originals. -/
theorem wirePackList_norm (le : Bool) (ps : List Prim) (vs : List PyValue)
    (h : allPrimOk ps vs = true) :
    wirePackList le ps (List.zipWith wireNorm ps vs) = wirePackList le ps vs := by
  induction ps generalizing vs with
  | nil => cases vs <;> simp_all [allPrimOk]
  | cons p ps ih =>
      cases vs with
      | nil => simp [allPrimOk] at h
      | cons v vs =>
          simp only [allPrimOk, Bool.and_eq_true] at h
          simp only [List.zipWith_cons_cons, wirePackList]
          rw [packPrim_wireNorm le p v h.1, ih vs h.2]

/-- Packing a concatenated format splits into the two segments' bytes. -/
theorem wirePackList_split (le : Bool) (ps1 ps2 : List Prim)
    (vs1 vs2 : List PyValue) (bs : List Nat)
    (hlen : vs1.length = ps1.length)
    (h : wirePackList le (ps1 ++ ps2) (vs1 ++ vs2) = .ok bs) :
    ∃ b1 b2, wirePackList le ps1 vs1 = .ok b1 ∧ wirePackList le ps2 vs2 = .ok b2 ∧
      bs = b1 ++ b2 := by
  induction ps1 generalizing vs1 bs with
  | nil =>
      cases vs1 with
      | nil => exact ⟨[], bs, rfl, by simpa using h, rfl⟩
      | cons v vs => simp at hlen
  | cons p ps ih =>
      cases vs1 with
      | nil => simp at hlen
      | cons v vs =>
          simp only [List.cons_append, wirePackList, bind, Except.bind,
            List.append_eq] at h
          cases hp : packPrim le p v with
          | error e => rw [hp] at h; cases h
          | ok b =>
              rw [hp] at h
              cases hrest : wirePackList le (ps ++ ps2) (vs ++ vs2) with
              | error e => rw [hrest] at h; cases h
              | ok rest =>
                  rw [hrest] at h
                  cases h
                  obtain ⟨b1, b2, hb1, hb2, hsplit⟩ :=
                    ih vs rest (by simpa using hlen) hrest
                  refine ⟨b ++ b1, b2, ?_, hb2, ?_⟩
                  · rw [wirePackList]
                    simp only [bind, Except.bind]
                    rw [hp, hb1]
                  · rw [hsplit, List.append_assoc]

/-- Flattening a concatenated field list splits into the two segments'
chunks. -/
theorem flattenFields_append (fs1 fs2 : List (String × Desc))
    (vs1 vs2 : List PyValue) (flat : List PyValue)
    (hlen : vs1.length = fs1.length)
    (h : flattenFields (fs1 ++ fs2) (vs1 ++ vs2) = .ok flat) :
    ∃ f1 f2, flattenFields fs1 vs1 = .ok f1 ∧ flattenFields fs2 vs2 = .ok f2 ∧
      flat = f1 ++ f2 := by
  induction fs1 generalizing vs1 flat with
  | nil =>
      cases vs1 with
      | nil => exact ⟨[], flat, rfl, by simpa using h, rfl⟩
      | cons v vs => simp at hlen
  | cons f fs ih =>
      obtain ⟨nm, d⟩ := f
      cases vs1 with
      | nil => simp at hlen
      | cons v vs =>
          simp only [List.cons_append, flattenFields, List.append_eq] at h
          cases hc : flattenField nm d v with
          | error e => rw [hc] at h; cases h
          | ok chunk =>
              rw [hc] at h
              cases hrest : flattenFields (fs ++ fs2) (vs ++ vs2) with
              | error e => rw [hrest] at h; cases h
              | ok rest =>
                  rw [hrest] at h
                  cases h
                  obtain ⟨f1, f2, hf1, hf2, hsplit⟩ :=
                    ih vs rest (by simpa using hlen) hrest
                  refine ⟨chunk ++ f1, f2, ?_, hf2, ?_⟩
                  · rw [flattenFields, hc, hf1]
                  · rw [hsplit, List.append_assoc]

/-- Extracting the comparison of the field at a known position from the
fieldwise record comparison. -/
theorem fieldsEqSpec_extract (fs1 fs2 : List (String × Desc)) (nm : String)
    (d : Desc) (xs1 xs2 out : List PyValue) (x : PyValue)
    (hlen : xs1.length = fs1.length)
    (h : fieldsEqSpec (fs1 ++ (nm, d) :: fs2) (xs1 ++ x :: xs2) out = true) :
    ∃ o1 y o2, out = o1 ++ y :: o2 ∧ o1.length = fs1.length ∧
      fieldEqSpec d x y = true := by
  induction fs1 generalizing xs1 out with
  | nil =>
      cases xs1 with
      | nil =>
          cases out with
          | nil => simp [fieldsEqSpec] at h
          | cons y os =>
              simp only [List.nil_append, fieldsEqSpec, Bool.and_eq_true] at h
              exact ⟨[], y, os, rfl, rfl, h.1⟩
      | cons v vs => simp at hlen
  | cons f fs ih =>
      obtain ⟨nm', d'⟩ := f
      cases xs1 with
      | nil => simp at hlen
      | cons v vs =>
          cases out with
          | nil => simp [fieldsEqSpec] at h
          | cons y os =>
              simp only [List.cons_append, fieldsEqSpec, Bool.and_eq_true] at h
              obtain ⟨o1, y', o2, hout, hol, heq⟩ :=
                ih vs os (by simpa using hlen) h.2
              exact ⟨y :: o1, y', o2, by rw [hout]; rfl, by simp [hol], heq⟩

theorem fieldsPrims_append (fs1 fs2 : List (String × Desc)) :
    fieldsPrims (fs1 ++ fs2) = fieldsPrims fs1 ++ fieldsPrims fs2 := by
  induction fs1 with
  | nil => simp [fieldsPrims]
  | cons f fs ih =>
      obtain ⟨nm, d⟩ := f
      simp [fieldsPrims, ih]

theorem fieldsWf_append (fs1 fs2 : List (String × Desc)) :
    fieldsWf (fs1 ++ fs2) = (fieldsWf fs1 && fieldsWf fs2) := by
  induction fs1 with
  | nil => simp [fieldsWf]
  | cons f fs ih =>
      obtain ⟨nm, d⟩ := f
      simp [fieldsWf, ih, Bool.and_assoc]

theorem fieldsDeepValid_append (fs1 fs2 : List (String × Desc))
    (xs1 xs2 : List PyValue) (hl : xs1.length = fs1.length) :
    fieldsDeepValid (fs1 ++ fs2) (xs1 ++ xs2) =
      (fieldsDeepValid fs1 xs1 && fieldsDeepValid fs2 xs2) := by
  induction fs1 generalizing xs1 with
  | nil =>
      cases xs1 with
      | nil => simp [fieldsDeepValid]
      | cons x xs => simp at hl
  | cons f fs ih =>
      obtain ⟨nm, d⟩ := f
      cases xs1 with
      | nil => simp at hl
      | cons x xs =>
          simp only [List.cons_append, fieldsDeepValid, List.append_eq,
            ih xs (by simpa using hl), Bool.and_assoc]

theorem fieldsWireOk_append (fs1 fs2 : List (String × Desc))
    (xs1 xs2 : List PyValue) (hl : xs1.length = fs1.length) :
    fieldsWireOk (fs1 ++ fs2) (xs1 ++ xs2) =
      (fieldsWireOk fs1 xs1 && fieldsWireOk fs2 xs2) := by
  induction fs1 generalizing xs1 with
  | nil =>
      cases xs1 with
      | nil => simp [fieldsWireOk]
      | cons x xs => simp at hl
  | cons f fs ih =>
      obtain ⟨nm, d⟩ := f
      cases xs1 with
      | nil => simp at hl
      | cons x xs =>
          simp only [List.cons_append, fieldsWireOk, List.append_eq,
            ih xs (by simpa using hl), Bool.and_assoc]

theorem flattenFields_compose (fs1 fs2 : List (String × Desc))
    (xs1 xs2 f1 f2 : List PyValue)
    (h1 : flattenFields fs1 xs1 = .ok f1) (h2 : flattenFields fs2 xs2 = .ok f2) :
    flattenFields (fs1 ++ fs2) (xs1 ++ xs2) = .ok (f1 ++ f2) := by
  induction fs1 generalizing xs1 f1 with
  | nil =>
      cases xs1 with
      | nil =>
          cases h1
          simpa using h2
      | cons x xs => simp [flattenFields] at h1
  | cons f fs ih =>
      obtain ⟨nm, d⟩ := f
      cases xs1 with
      | nil => simp [flattenFields] at h1
      | cons x xs =>
          simp only [flattenFields] at h1
          cases hc : flattenField nm d x with
          | error e => rw [hc] at h1; cases h1
          | ok chunk =>
              rw [hc] at h1
              cases hrest : flattenFields fs xs with
              | error e => rw [hrest] at h1; cases h1
              | ok rest =>
                  rw [hrest] at h1
                  cases h1
                  simp only [List.cons_append, flattenFields, List.append_eq]
                  rw [hc, ih xs rest hrest]
                  simp [List.append_assoc]

/-! ## Concrete schemas used by the claim theorems -/

/-- A single unsigned-byte field (`IntField("B")`), little-endian. -/
def uint8Schema : Schema := ⟨.little, [("v", .intF .ub noCheck)]⟩

/-- A single boolean field (`BooleanField()`), little-endian. -/
def boolSchema : Schema := ⟨.little, [("flag", .boolF noCheck)]⟩

/-- A single `IntField("L")` field, little-endian. -/
def ulongSchema : Schema := ⟨.little, [("x", .intF .ul noCheck)]⟩

/-- A little-endian parent holding one nested record whose only field is a
two-byte text field. -/
def nestedTextSchema : Schema :=
  ⟨.little, [("sub", .subF .little [("t", .textF 2 latin1 noCheck)])]⟩

/-- `{sub: {t: "a"}}` — every field value passes its validator. -/
def nestedTextRec : PyValue := .record [.record [.str [97]]]

/-- A big-endian child inside a little-endian parent: the shape of the repo's
own `SubStructMessage`, whose `Header` child is network order. -/
def mixedOrderParent : Schema :=
  ⟨.little, [("h", .subF .big [("x", .intF .uh noCheck)])]⟩

/-- The nested record's own schema, compiled big-endian. -/
def mixedOrderChild : Schema := ⟨.big, [("x", .intF .uh noCheck)]⟩

def mixedOrderRec : PyValue := .record [.record [.int 256]]

/-! ## The claims -/

/-- C3 (counterexample): the size invariant fails as stated.  The record
`{x := 2^32}` passes the `IntField("L")` validator (the declared
`_INTEGER_LIMITS` range for `L` is the 8-byte range `0..2^64-1`) on a
well-formed schema, yet `pack` raises `PackingError` because the explicit-order
wire format packs `L` into 4 bytes, so `len(pack(r))` is not the schema size —
there is no packed output at all. -/
theorem sizeInvariant_counterexample :
    ulongSchema.wf = true ∧
    ulongSchema.deepValid (.record [.int 4294967296]) = true ∧
    packSchema ulongSchema (.record [.int 4294967296]) = .error .packing :=
  ⟨rfl, rfl, rfl⟩

/-- C3 (amended): for every well-formed compiled schema and every record whose
field values pass their validators *and* lie within the wire ranges of their
format characters (which differs from the declared validator range only for
`l`/`L`, packed standard-size as 4 bytes), packing succeeds and
`len(pack(r))` equals the schema's compiled byte size. -/
theorem sizeInvariant_amended (s : Schema) (r : PyValue)
    (hwf : s.wf = true) (hv : s.deepValid r = true) (hw : s.wireOk r = true) :
    ∃ bs, packSchema s r = .ok bs ∧ bs.length = s.size := by
  cases r with
  | record vs =>
      simp only [Schema.wf, Bool.and_eq_true] at hwf
      simp only [Schema.deepValid] at hv
      simp only [Schema.wireOk] at hw
      have harity : vs.length = s.fields.length := fieldsDeepValid_arity _ _ hv
      obtain ⟨flat, hflat, hfOk⟩ := flattenFields_ok s.fields vs hwf.2 hv hw
      obtain ⟨bs, hbs⟩ := isOk_exists _
        ((wirePackList_isOk s.order.isLE (fieldsPrims s.fields) flat).trans hfOk)
      refine ⟨bs, ?_, wirePackList_length _ _ _ _ hbs⟩
      rw [packSchema, if_pos harity, hflat]
      simp only [Schema.prims]
      rw [hbs]
  | int n => simp [Schema.deepValid] at hv
  | bool b => simp [Schema.deepValid] at hv
  | float bits => simp [Schema.deepValid] at hv
  | bytes bs => simp [Schema.deepValid] at hv
  | str cs => simp [Schema.deepValid] at hv
  | list ws => simp [Schema.deepValid] at hv

/-- C3 witness: the amended size invariant at a nested-text schema (3 fields
deep in wire terms it is a single 2-byte blob). -/
theorem sizeInvariant_witness :
    ∃ bs, packSchema nestedTextSchema nestedTextRec = .ok bs ∧
      bs.length = nestedTextSchema.size :=
  sizeInvariant_amended nestedTextSchema nestedTextRec rfl rfl rfl

/-- C4: for every compiled schema, `unpack` on a buffer shorter than the
schema size fails with the `UnpackingError` that reports expected versus
actual size, and `unpack_from` likewise whenever `len(buffer) - offset` is
smaller than the schema size (equivalently `len(buffer) < offset + size`).
The error is the pre-check's own constructor — distinct from `decodeFailed`,
the wrapper for a failure of the binary decode, which is therefore never
attempted. -/
theorem truncation_precheck (s : Schema) (buf : List Nat) (off : Nat) :
    (buf.length < s.size →
      unpackSchema s buf = .error (.tooSmall s.size buf.length) ∧
      Err.isUnpackingError (.tooSmall s.size buf.length) = true) ∧
    (buf.length < off + s.size →
      unpackFromSchema s buf off = .error (.tooSmallFrom s.size off buf.length) ∧
      Err.isUnpackingError (.tooSmallFrom s.size off buf.length) = true) := by
  constructor
  · intro h
    exact ⟨by rw [unpackSchema, if_pos h], rfl⟩
  · intro h
    exact ⟨by rw [unpackFromSchema, if_pos h], rfl⟩

/-- C4 witness: a 1-byte schema rejects an empty buffer, and rejects a 1-byte
buffer at offset 1. -/
theorem truncation_witness :
    unpackSchema uint8Schema [] = .error (.tooSmall 1 0) ∧
    unpackFromSchema uint8Schema [5] 1 = .error (.tooSmallFrom 1 1 1) :=
  ⟨((truncation_precheck uint8Schema [] 0).1 (by decide)).1,
   ((truncation_precheck uint8Schema [5] 1).2 (by decide)).1⟩

/-- C5: the float descriptor (modelled from the spec, its definition being
absent from `src/safestruct/descriptors.py`) constructs successfully exactly
for the two IEEE widths — format characters `f` and `d` after stripping a
leading byte-order character — fails with `FormatError` otherwise, and its
validator rejects every non-numeric value. -/
theorem floatField_widths :
    (∀ cs : List Char, (mkFloatField cs).isOk =
        (lstripOrderChars cs == ['f'] || lstripOrderChars cs == ['d'])) ∧
    (∀ cs : List Char, (mkFloatField cs).isOk = false →
        mkFloatField cs = .error .formatError) ∧
    (∀ (check : PyValue → Bool) (v : PyValue), v.isNumeric = false →
        floatValidator check v = false) := by
  refine ⟨?_, ?_, ?_⟩
  · intro cs
    rw [mkFloatField]
    by_cases h1 : lstripOrderChars cs = ['f']
    · simp [h1, Except.isOk, Except.toBool]
    · by_cases h2 : lstripOrderChars cs = ['d'] <;>
        simp [h1, h2, Except.isOk, Except.toBool]
  · intro cs h
    rw [mkFloatField] at h ⊢
    by_cases h1 : lstripOrderChars cs = ['f']
    · simp [h1, Except.isOk, Except.toBool] at h
    · by_cases h2 : lstripOrderChars cs = ['d']
      · simp [h1, h2, Except.isOk, Except.toBool] at h
      · simp [h1, h2]
  · intro check v h
    simp [floatValidator, h]

/-- C5 witness: `FloatField("H")` fails with `FormatError` and the validator
rejects a string. -/
theorem floatField_witness :
    mkFloatField ['H'] = .error .formatError ∧
    floatValidator noCheck (.str [104]) = false :=
  ⟨floatField_widths.2.1 ['H'] rfl,
   floatField_widths.2.2 noCheck (.str [104]) rfl⟩

/-- C6: an integer field's validator (with the default custom check) accepts
exactly the int-like values inside the declared `[min, max]` range of its
width and signedness; both boundaries validate, both `min-1` and `max+1` do
not; concretely for the 8-bit unsigned field, `255` packs successfully while
`256` and `-1` fail with `ValidationError` naming the field. -/
theorem intField_boundaries (c : IntChar) (v : PyValue) :
    ((Desc.intF c noCheck).validator v = true ↔
      v.isIntLike = true ∧ c.limits.1 ≤ v.intVal ∧ v.intVal ≤ c.limits.2) ∧
    (Desc.intF c noCheck).validator (.int c.limits.1) = true ∧
    (Desc.intF c noCheck).validator (.int c.limits.2) = true ∧
    (Desc.intF c noCheck).validator (.int (c.limits.1 - 1)) = false ∧
    (Desc.intF c noCheck).validator (.int (c.limits.2 + 1)) = false ∧
    packSchema uint8Schema (.record [.int 255]) = .ok [255] ∧
    packSchema uint8Schema (.record [.int 256]) = .error (.validation "v") ∧
    packSchema uint8Schema (.record [.int (-1)]) = .error (.validation "v") := by
  refine ⟨?_, ?_, ?_, ?_, ?_, rfl, rfl, rfl⟩
  · simp [Desc.validator, noCheck, and_assoc]
  · cases c <;> simp [Desc.validator, noCheck, IntChar.limits]
  · cases c <;> simp [Desc.validator, noCheck, IntChar.limits]
  · cases c <;> simp [Desc.validator, noCheck, IntChar.limits]
  · cases c <;> simp [Desc.validator, noCheck, IntChar.limits]

/-- C6 witness: the boundary value `255` satisfies the 8-bit unsigned
validator, through the characterisation. -/
theorem intField_witness :
    (Desc.intF .ub noCheck).validator (.int 255) = true :=
  (intField_boundaries .ub (.int 255)).1.mpr ⟨rfl, by decide, by decide⟩

/-- C7: a fixed-length text field right-pads a shorter encoding with zero
bytes to exactly its length on pack; on unpack it truncates the raw blob at
its first zero byte (using it whole when none is present) before decoding; and
its validator rejects non-strings, strings whose encoding exceeds the length,
and strings whose encoding fails — as a validation result, not an exception. -/
theorem textField_rules (n : Nat) (enc : PyEncoding) (check : PyValue → Bool)
    (cs e bs : List Nat) (v : PyValue) :
    (enc.encode cs = some e → e.length ≤ n →
      textPackValue n enc cs = .ok (e ++ List.replicate (n - e.length) 0) ∧
      (e ++ List.replicate (n - e.length) 0).length = n) ∧
    (textUnpackValue enc bs =
      match enc.decode (bs.takeWhile (· ≠ 0)) with
      | some s => .ok s
      | none => .error .rawError) ∧
    ((∀ b ∈ bs, b ≠ 0) → truncAtZero bs = bs) ∧
    (enc.encode cs = none → (Desc.textF n enc check).validator (.str cs) = false) ∧
    (enc.encode cs = some e → n < e.length →
      (Desc.textF n enc check).validator (.str cs) = false) ∧
    (v.isStr = false → (Desc.textF n enc check).validator v = false) := by
  refine ⟨?_, ?_, ?_, ?_, ?_, ?_⟩
  · intro henc hle
    rw [textPackValue, henc]
    refine ⟨?_, ?_⟩
    · simp only [if_neg (show ¬ n < e.length by omega)]
    · simp
      omega
  · rw [textUnpackValue, truncAtZero_eq_takeWhile]
  · intro h
    rw [truncAtZero_eq_takeWhile]
    induction bs with
    | nil => rfl
    | cons b rest ih =>
        have hb : b ≠ 0 := h b (by simp)
        simp [List.takeWhile_cons, hb]
        exact fun x hx => h x (by simp [hx])
  · intro henc
    simp [Desc.validator, henc]
  · intro henc hlt
    simp [Desc.validator, henc]
    omega
  · intro h
    cases v <;> simp_all [PyValue.isStr, Desc.validator]

/-- C7 witness: with Latin-1, `"hi"` in a 4-byte field packs padded to
`68 69 00 00`, the padded blob unpacks back to `"hi"`, a 5-byte encoding
fails a 4-byte field's validator, and an unencodable string (a codepoint
above 255) fails validation rather than raising. -/
theorem textField_witness :
    textPackValue 4 latin1 [104, 105] = .ok [104, 105, 0, 0] ∧
    textUnpackValue latin1 [104, 105, 0, 0] = .ok [104, 105] ∧
    (Desc.textF 4 latin1 noCheck).validator (.str [104, 105, 106, 107, 108]) = false ∧
    (Desc.textF 4 latin1 noCheck).validator (.str [300]) = false := by
  refine ⟨?_, ?_, ?_, ?_⟩
  · exact ((textField_rules 4 latin1 noCheck [104, 105] [104, 105] []
      (.int 0)).1 rfl (by decide)).1
  · rw [(textField_rules 4 latin1 noCheck [] [] [104, 105, 0, 0] (.int 0)).2.1]
    rfl
  · exact (textField_rules 4 latin1 noCheck [104, 105, 106, 107, 108]
      [104, 105, 106, 107, 108] [] (.int 0)).2.2.2.2.1 rfl (by decide)
  · exact (textField_rules 4 latin1 noCheck [300] [] [] (.int 0)).2.2.2.1 rfl

/-- C8: a boolean field's validator accepts a value only if it is strictly a
Python `bool`; the integer `1` in a declared boolean field fails validation —
`pack` raises `ValidationError` naming the field — instead of being coerced. -/
theorem boolField_strict (check : PyValue → Bool) (v : PyValue) :
    ((Desc.boolF check).validator v = true → v.isBool = true) ∧
    (Desc.boolF noCheck).validator (.int 1) = false ∧
    packSchema boolSchema (.record [.int 1]) = .error (.validation "flag") ∧
    packSchema boolSchema (.record [.bool true]) = .ok [1] := by
  refine ⟨?_, rfl, rfl, rfl⟩
  intro h
  simp only [Desc.validator, Bool.and_eq_true] at h
  exact h.1

/-- C8 witness: the only-if direction at `True` itself. -/
theorem boolField_witness : (PyValue.bool true).isBool = true :=
  (boolField_strict noCheck (.bool true)).1 rfl

/-- C9: `pack_into` performs no buffer-size pre-check of its own: on a valid
record with a window that does not fit (`offset + size > len(buffer)`), the
record still flattens and validates, the failure is produced by the underlying
binary-encode call (`struct.pack_into`), and the generated method surfaces it
as `PackingError` — not as an `UnpackingError` or a raw error. -/
theorem packInto_no_precheck (s : Schema) (r : PyValue) (buf : List Nat)
    (off : Nat) (hwf : s.wf = true) (hv : s.deepValid r = true)
    (hw : s.wireOk r = true) (hshort : buf.length < off + s.size) :
    packIntoSchema s r buf off = .error .packing ∧
    Err.isUnpackingError .packing = false ∧
    ∃ vs flat, r = .record vs ∧ flattenFields s.fields vs = .ok flat ∧
      wirePackInto s.order.isLE s.prims flat buf off = .error () := by
  cases r with
  | record vs =>
      simp only [Schema.wf, Bool.and_eq_true] at hwf
      simp only [Schema.deepValid] at hv
      simp only [Schema.wireOk] at hw
      have harity : vs.length = s.fields.length := fieldsDeepValid_arity _ _ hv
      obtain ⟨flat, hflat, hfOk⟩ := flattenFields_ok s.fields vs hwf.2 hv hw
      have hshort' : buf.length < off + primsSize s.prims := hshort
      have hwpi : wirePackInto s.order.isLE s.prims flat buf off = .error () := by
        rw [wirePackInto, if_pos hshort']
      refine ⟨?_, rfl, vs, flat, rfl, hflat, hwpi⟩
      rw [packIntoSchema, if_pos harity, hflat]
      simp only [hwpi]
  | int n => simp [Schema.deepValid] at hv
  | bool b => simp [Schema.deepValid] at hv
  | float bits => simp [Schema.deepValid] at hv
  | bytes bs => simp [Schema.deepValid] at hv
  | str cs => simp [Schema.deepValid] at hv
  | list ws => simp [Schema.deepValid] at hv

/-- C9 witness: packing a valid byte into an empty buffer fails as
`PackingError` originating in the wire layer. -/
theorem packInto_witness :
    packIntoSchema uint8Schema (.record [.int 7]) [] 0 = .error .packing :=
  (packInto_no_precheck uint8Schema (.record [.int 7]) [] 0 rfl rfl rfl
    (by decide)).1

/-- C10 (implicit): every integer field's validator accepts Python booleans —
`isinstance(True, int)` holds, and `1` lies in every declared integer range —
so `True` validates and packs as `1`, while a boolean field rejects the
integer `1`: the asymmetry the code exhibits. -/
theorem boolAsInt_asymmetry (c : IntChar) :
    (Desc.intF c noCheck).validator (.bool true) = true ∧
    packSchema uint8Schema (.record [.bool true]) = .ok [1] ∧
    packSchema uint8Schema (.record [.int 1]) = .ok [1] ∧
    (Desc.boolF noCheck).validator (.int 1) = false := by
  refine ⟨?_, rfl, rfl, rfl⟩
  cases c <;> decide

/-- C10 witness: `True` passes the 8-bit unsigned integer validator. -/
theorem boolAsInt_witness :
    (Desc.intF .ub noCheck).validator (.bool true) = true :=
  (boolAsInt_asymmetry .ub).1

/-- C1 (counterexample): the round-trip law fails as stated.  Every field of
`{sub: {t: "a"}}` passes its validator on a well-formed compiled schema, yet
unpack(pack(r)) reconstructs the nested record positionally from raw decoded
primitives, so the child's text field comes back as the padded bytes
`b"a\x00"` rather than the string — the records are not equal field-for-field
under the law's own comparison. -/
theorem roundTrip_counterexample :
    nestedTextSchema.wf = true ∧
    nestedTextSchema.deepValid nestedTextRec = true ∧
    nestedTextSchema.wireOk nestedTextRec = true ∧
    packSchema nestedTextSchema nestedTextRec = .ok [97, 0] ∧
    unpackSchema nestedTextSchema [97, 0] =
      .ok (.record [.record [.bytes [97, 0]]]) ∧
    recordEqSpec nestedTextSchema.fields nestedTextRec
      (.record [.record [.bytes [97, 0]]]) = false :=
  ⟨rfl, rfl, rfl, rfl, rfl, rfl⟩

/-- C1 (amended): the round-trip law holds for every well-formed compiled
schema whose nested sub-records contain only scalar (int/bool) fields — the
shape for which the compiled `num_primitives` bookkeeping and the positional
child reconstruction are exact — whose text encodings commute with
truncation at the first zero (as UTF-8, ASCII and Latin-1 do), and for every
record whose field values pass their validators at every level, respect the
wire ranges, and conform structurally: unpack(pack(r)) succeeds and equals r
field-for-field, text fields comparing after padding-strip, bytes, array, and
nested-record fields comparing structurally. -/
theorem roundTrip_amended (s : Schema) (r : PyValue)
    (hwf : s.wf = true) (hsc : s.scalarChildren = true) (hge : s.goodEnc)
    (hv : s.deepValid r = true) (hw : s.wireOk r = true) :
    ∃ bs r', packSchema s r = .ok bs ∧ unpackSchema s bs = .ok r' ∧
      recordEqSpec s.fields r r' = true := by
  obtain ⟨bs, r', h1, _, h3, h4⟩ := packUnpackRoundTrip s r hwf hsc hge hv hw
  exact ⟨bs, r', h1, h3, h4⟩

/-- Schema exercising every descriptor kind the amended round-trip law
covers: int, text, array, nested record (big-endian child in a little-endian
parent, scalar fields only), bytes, bool. -/
def roundTripSchema : Schema :=
  ⟨.little,
    [("a", .intF .ub noCheck),
     ("t", .textF 4 latin1 noCheck),
     ("arr", .arrayF (.intF .uh noCheck) 2),
     ("sub", .subF .big [("x", .intF .sh noCheck), ("y", .boolF noCheck)]),
     ("bb", .bytesF 2 noCheck),
     ("ok", .boolF noCheck)]⟩

def roundTripRec : PyValue :=
  .record [.int 255, .str [104, 105], .list [.int 1, .int 513],
    .record [.int (-2), .bool true], .bytes [9, 8], .bool false]

/-- C1 witness: the amended round trip at a record exercising all covered
field kinds. -/
theorem roundTrip_witness :
    ∃ bs r', packSchema roundTripSchema roundTripRec = .ok bs ∧
      unpackSchema roundTripSchema bs = .ok r' ∧
      recordEqSpec roundTripSchema.fields roundTripRec r' = true :=
  roundTrip_amended roundTripSchema roundTripRec rfl rfl
    (by
      intro f hf
      simp only [roundTripSchema, List.mem_cons, List.not_mem_nil, or_false] at hf
      rcases hf with rfl | rfl | rfl | rfl | rfl | rfl
      · exact trivial
      · exact goodEncoding_latin1
      · exact trivial
      · exact trivial
      · exact trivial
      · exact trivial)
    rfl rfl

/-- C2 (counterexample): the nested-composition property fails when parent
and child were compiled with different byte orders — exactly the shape of the
repo's own `SubStructMessage` (little-endian) around `Header` (network
order).  The parent re-encodes the child's primitives with the *parent's*
order, so its bytes at the nested field's offset are `00 01` while the
child's own `pack()` yields `01 00`. -/
theorem nestedComposition_counterexample :
    mixedOrderParent.wf = true ∧
    mixedOrderParent.deepValid mixedOrderRec = true ∧
    packSchema mixedOrderParent mixedOrderRec = .ok [0, 1] ∧
    packSchema mixedOrderChild (.record [.int 256]) = .ok [1, 0] ∧
    ¬ (((([0, 1] : List Nat).drop 0).take 2) = [1, 0]) :=
  ⟨rfl, rfl, rfl, rfl, by decide⟩

/-- C2 (amended): for a parent schema `pre ++ [nested] ++ post` whose byte
direction agrees with the child's (network and big are the same direction),
under the amended round-trip hypotheses (scalar-only sub-records — which the
nested child itself satisfies — regular text encodings, validators and wire
ranges passing): packing the parent produces, at the nested field's offset,
exactly the bytes of the child's own `pack()`, and unpacking reconstructs at
that position a sub-record equal (Python `==`) to the original child. -/
theorem nestedComposition_amended
    (ord cord : ByteOrder) (nm : String)
    (pre post cfields : List (String × Desc))
    (vpre vpost cvs : List PyValue)
    (hdir : cord.isLE = ord.isLE)
    (hpl : vpre.length = pre.length)
    (hwf : Schema.wf ⟨ord, pre ++ (nm, .subF cord cfields) :: post⟩ = true)
    (hsc : Schema.scalarChildren ⟨ord, pre ++ (nm, .subF cord cfields) :: post⟩ = true)
    (hge : Schema.goodEnc ⟨ord, pre ++ (nm, .subF cord cfields) :: post⟩)
    (hv : Schema.deepValid ⟨ord, pre ++ (nm, .subF cord cfields) :: post⟩
      (.record (vpre ++ .record cvs :: vpost)) = true)
    (hw : Schema.wireOk ⟨ord, pre ++ (nm, .subF cord cfields) :: post⟩
      (.record (vpre ++ .record cvs :: vpost)) = true) :
    ∃ bs cbs out o1 y o2,
      packSchema ⟨ord, pre ++ (nm, .subF cord cfields) :: post⟩
        (.record (vpre ++ .record cvs :: vpost)) = .ok bs ∧
      packSchema ⟨cord, cfields⟩ (.record cvs) = .ok cbs ∧
      (bs.drop (primsSize (fieldsPrims pre))).take
        (primsSize (fieldsPrims cfields)) = cbs ∧
      unpackSchema ⟨ord, pre ++ (nm, .subF cord cfields) :: post⟩ bs =
        .ok (.record out) ∧
      out = o1 ++ y :: o2 ∧ o1.length = pre.length ∧
      pyEq (.record cvs) y = true := by
  set S : Schema := ⟨ord, pre ++ (nm, .subF cord cfields) :: post⟩ with hS
  set r : PyValue := .record (vpre ++ .record cvs :: vpost) with hr
  -- decompose the record-level hypotheses
  have hvflds : fieldsDeepValid S.fields (vpre ++ .record cvs :: vpost) = true := hv
  have hwflds : fieldsWireOk S.fields (vpre ++ .record cvs :: vpost) = true := hw
  have hwfflds : fieldsWf S.fields = true := by
    have := hwf
    simp only [Schema.wf, Bool.and_eq_true] at this
    exact this.2
  rw [show S.fields = pre ++ (nm, .subF cord cfields) :: post
    from rfl] at hvflds hwflds hwfflds
  rw [fieldsDeepValid_append _ _ _ _ hpl, Bool.and_eq_true] at hvflds
  rw [fieldsWireOk_append _ _ _ _ hpl, Bool.and_eq_true] at hwflds
  rw [fieldsWf_append, Bool.and_eq_true] at hwfflds
  obtain ⟨hvpre, hvrest⟩ := hvflds
  obtain ⟨hwpre, hwrest⟩ := hwflds
  obtain ⟨hwfpre, hwfrest⟩ := hwfflds
  rw [show fieldsDeepValid ((nm, .subF cord cfields) :: post)
      (.record cvs :: vpost) =
      ((Desc.subF cord cfields).deepValid (.record cvs) &&
        fieldsDeepValid post vpost) from rfl, Bool.and_eq_true] at hvrest
  rw [show fieldsWireOk ((nm, .subF cord cfields) :: post)
      (.record cvs :: vpost) =
      ((Desc.subF cord cfields).wireOk (.record cvs) &&
        fieldsWireOk post vpost) from rfl, Bool.and_eq_true] at hwrest
  rw [show fieldsWf ((nm, .subF cord cfields) :: post) =
      ((Desc.subF cord cfields).wf && fieldsWf post) from rfl,
    Bool.and_eq_true] at hwfrest
  obtain ⟨hvc, hvpost⟩ := hvrest
  obtain ⟨hwc, hwpost⟩ := hwrest
  obtain ⟨hwfc, hwfpost⟩ := hwfrest
  have hvcf : fieldsDeepValid cfields cvs = true := hvc
  have hwcf : fieldsWireOk cfields cvs = true := hwc
  have hwfcf : fieldsWf cfields = true := by
    simp only [Desc.wf, Bool.and_eq_true] at hwfc
    exact hwfc.2
  have hscchild : cfields.all (fun f => f.2.isScalar) = true := by
    have := hsc
    simp only [Schema.scalarChildren, hS, List.all_append, List.all_cons,
      Bool.and_eq_true] at this
    exact this.2.1
  have hcarity : cvs.length = cfields.length := fieldsDeepValid_arity _ _ hvcf
  -- the child's own pack
  have hflatc : flattenFields cfields cvs = .ok cvs :=
    flattenFields_scalar cfields cvs hscchild hvcf
  obtain ⟨flat0, hflat0, hpkc⟩ := flattenFields_ok cfields cvs hwfcf hvcf hwcf
  rw [hflat0] at hflatc
  cases hflatc
  obtain ⟨cbs, hcbs⟩ := isOk_exists _
    ((wirePackList_isOk cord.isLE (fieldsPrims cfields) cvs).trans hpkc)
  have hchildpack : packSchema ⟨cord, cfields⟩ (.record cvs) = .ok cbs := by
    rw [packSchema, if_pos hcarity, hflat0]
    simp only [Schema.prims]
    rw [hcbs]
  -- the nested field's flattened chunk
  have hunpc := wireUnpack_wirePack cord.isLE (fieldsPrims cfields) cvs cbs hcbs
  have hchunk : flattenField nm (Desc.subF cord cfields) (.record cvs) =
      .ok (List.zipWith wireNorm (fieldsPrims cfields) cvs) := by
    have hvalsub :
        (Desc.subF cord cfields).validator (PyValue.record cvs) = true := rfl
    rw [flattenField]
    simp only [hvalsub, if_true, hcarity, hflat0, hcbs, hunpc, eq_self_iff_true]
  -- the pre and post chunks
  obtain ⟨fpre, hfpre, hfpreOk⟩ := flattenFields_ok pre vpre hwfpre hvpre hwpre
  obtain ⟨fpost, hfpost, hfpostOk⟩ :=
    flattenFields_ok post vpost hwfpost hvpost hwpost
  -- the whole flat sequence and the packed bytes, segment by segment
  have hflatall : flattenFields (pre ++ (nm, .subF cord cfields) :: post)
      (vpre ++ .record cvs :: vpost) =
      .ok (fpre ++ (List.zipWith wireNorm (fieldsPrims cfields) cvs ++ fpost)) := by
    refine flattenFields_compose _ _ _ _ _ _ hfpre ?_
    rw [flattenFields, hchunk, hfpost]
  obtain ⟨bpre, hbpre⟩ := isOk_exists _
    ((wirePackList_isOk ord.isLE (fieldsPrims pre) fpre).trans hfpreOk)
  obtain ⟨bpost, hbpost⟩ := isOk_exists _
    ((wirePackList_isOk ord.isLE (fieldsPrims post) fpost).trans hfpostOk)
  have hmidbytes : wirePackList ord.isLE (fieldsPrims cfields)
      (List.zipWith wireNorm (fieldsPrims cfields) cvs) = .ok cbs := by
    rw [wirePackList_norm ord.isLE (fieldsPrims cfields) cvs hpkc, ← hdir, hcbs]
  have hpackall : wirePackList ord.isLE (fieldsPrims S.fields)
      (fpre ++ (List.zipWith wireNorm (fieldsPrims cfields) cvs ++ fpost)) =
      .ok (bpre ++ (cbs ++ bpost)) := by
    have hmidpost : wirePackList ord.isLE
        (fieldsPrims cfields ++ fieldsPrims post)
        (List.zipWith wireNorm (fieldsPrims cfields) cvs ++ fpost) =
        .ok (cbs ++ bpost) :=
      wirePackList_append _ _ _ _ _ _ _ hmidbytes hbpost
    have : fieldsPrims S.fields =
        fieldsPrims pre ++ (fieldsPrims cfields ++ fieldsPrims post) := by
      rw [show S.fields = pre ++ (nm, .subF cord cfields) :: post from rfl,
        fieldsPrims_append]
      rfl
    rw [this]
    exact wirePackList_append _ _ _ _ _ _ _ hbpre hmidpost
  have harityall : (vpre ++ .record cvs :: vpost).length = S.fields.length := by
    rw [show S.fields = pre ++ (nm, .subF cord cfields) :: post from rfl]
    simp [hpl, fieldsDeepValid_arity post vpost hvpost]
  have hpackS : packSchema S r = .ok (bpre ++ (cbs ++ bpost)) := by
    rw [packSchema, if_pos harityall]
    simp only [Schema.prims, hflatall, hpackall]
  -- lengths of the segments
  have hlpre : bpre.length = primsSize (fieldsPrims pre) :=
    wirePackList_length _ _ _ _ hbpre
  have hlmid : cbs.length = primsSize (fieldsPrims cfields) :=
    wirePackList_length _ _ _ _ hcbs
  -- the byte-identity of the nested segment
  have hsegment : ((bpre ++ (cbs ++ bpost)).drop
      (primsSize (fieldsPrims pre))).take (primsSize (fieldsPrims cfields)) =
      cbs := by
    rw [← hlpre, List.drop_left, ← hlmid, List.take_left]
  -- the unpack side, via the round-trip theorem
  obtain ⟨bs', r', hpack', _, hunp', heq'⟩ :=
    packUnpackRoundTrip S r hwf hsc hge hv hw
  rw [hpackS] at hpack'
  cases hpack'
  cases r' with
  | record out =>
      simp only [recordEqSpec] at heq'
      obtain ⟨o1, y, o2, hout, hol, hfy⟩ :=
        fieldsEqSpec_extract pre post nm (Desc.subF cord cfields)
          vpre vpost out (.record cvs) hpl heq'
      refine ⟨bpre ++ (cbs ++ bpost), cbs, out, o1, y, o2,
        hpackS, hchildpack, hsegment, hunp', hout, hol, hfy⟩
  | int n => simp [recordEqSpec] at heq'
  | bool b => simp [recordEqSpec] at heq'
  | float bits => simp [recordEqSpec] at heq'
  | bytes bs2 => simp [recordEqSpec] at heq'
  | str cs => simp [recordEqSpec] at heq'
  | list ws => simp [recordEqSpec] at heq'

/-- Child field list used by the C2 witness. -/
def c2wChild : List (String × Desc) :=
  [("a", .intF .ub noCheck), ("b", .intF .uh noCheck)]

/-- Trailing parent fields used by the C2 witness. -/
def c2wPost : List (String × Desc) := [("p", .intF .ui noCheck)]

/-- C2 witness: a little-endian parent around a little-endian child — the
packed parent starts with exactly the child's own packed bytes, and the
unpacked parent holds an equal sub-record. -/
theorem nestedComposition_witness :
    ∃ bs cbs out o1 y o2,
      packSchema ⟨.little, [] ++ ("h", .subF .little c2wChild) :: c2wPost⟩
        (.record ([] ++ .record [.int 1, .int 1024] :: [.int 3735928559])) =
        .ok bs ∧
      packSchema ⟨.little, c2wChild⟩ (.record [.int 1, .int 1024]) = .ok cbs ∧
      (bs.drop (primsSize (fieldsPrims ([] : List (String × Desc))))).take
        (primsSize (fieldsPrims c2wChild)) = cbs ∧
      unpackSchema ⟨.little, [] ++ ("h", .subF .little c2wChild) :: c2wPost⟩
        bs = .ok (.record out) ∧
      out = o1 ++ y :: o2 ∧ o1.length = ([] : List (String × Desc)).length ∧
      pyEq (.record [.int 1, .int 1024]) y = true :=
  nestedComposition_amended .little .little "h" [] c2wPost c2wChild
    [] [.int 3735928559] [.int 1, .int 1024]
    rfl rfl rfl rfl
    (by
      intro f hf
      simp only [List.nil_append, c2wPost, List.mem_cons, List.not_mem_nil,
        or_false] at hf
      rcases hf with rfl | rfl
      · exact trivial
      · exact trivial)
    rfl rfl

end SafeStruct
